import Mathlib

/-!
Shallow embedding of the monophonic audio-to-MIDI transcription pipeline
(`src/audiotomidimonophonic/midi_framework.py`) and verification of the
frozen claims about it.

Conventions of the embedding:
* numpy arrays become `List α` over a `LinearOrderedField α`; the pipeline
  entry point `featuresToMidi` is instantiated at `ℝ` because
  `librosa.hz_to_midi` uses a logarithm and `np.std` a square root.
* code that can raise a Python exception (out-of-range indexing, reduction
  of an empty array, shape mismatch in broadcasting) returns `Option`;
  `none` models the raised exception.
* `np.interp` is always called with a two-element `xp` in this code base, so
  it is embedded as `npInterp2`, a faithful transcription of numpy's
  `arr_interp` C routine restricted to `lenxp = 2` (including its behaviour
  on a degenerate `xp = (c, c)`, where every key `≥ c` maps to `fp[1]`).
* `int(round x)` / `np.round` use round-half-to-even, embedded as `rhe`.
-/

namespace A2M

/-- Frames-per-second constant `FPS` from `config.py`. -/
def FPS : ℕ := 100

/-- A mutable working note of the pipeline (`class Note`): floating pitch,
frame indices `start`/`end` (exclusive), floating velocity.  The `end` field
is written `end_` because `end` is a Lean keyword. -/
structure Note (α : Type) where
  pitch : α
  start : ℕ
  end_ : ℕ
  velocity : α
deriving Repr, DecidableEq

/-- A finalized output note event (`pretty_midi.Note`): integer pitch and
velocity, real start/end times taken from the `time` array. -/
structure NoteEvent (α : Type) where
  pitch : ℤ
  velocity : ℤ
  start_time : α
  end_time : α
deriving Repr, DecidableEq

variable {α : Type} [LinearOrderedField α]

/-- Array indexing `x[i]` with junk default `0`; the source only indexes in
range on the paths modelled here. -/
def get0 (l : List α) (i : ℕ) : α := l.getD i 0

/-- `np.max` / `.max()` of a nonempty list (total helper). -/
def listMax : List α → α
  | [] => 0
  | x :: xs => xs.foldl max x

/-- `np.min` / `.min()` of a nonempty list (total helper). -/
def listMin : List α → α
  | [] => 0
  | x :: xs => xs.foldl min x

/-- `np.max`, raising (`none`) on an empty array. -/
def npMax (l : List α) : Option α :=
  match l with
  | [] => none
  | x :: xs => some (xs.foldl max x)

/-- `np.min`, raising (`none`) on an empty array. -/
def npMin (l : List α) : Option α :=
  match l with
  | [] => none
  | x :: xs => some (xs.foldl min x)

/-- `np.interp(x, (a, b), (c, d))`: transcription of numpy's `arr_interp`
for a two-element `xp`.  The branch order mirrors the C code:
`key > xp[-1]` ↦ `fp[-1]`, `key < xp[0]` ↦ `fp[0]`, `key ≥ xp[1]` (i.e. the
bisection lands on the last index, which is what happens for the degenerate
`a = b`) ↦ `fp[1]`, otherwise linear interpolation on `[a, b)`. -/
def npInterp2 (x a b c d : α) : α :=
  if b < x then d
  else if x < a then c
  else if b ≤ x then d
  else c + (d - c) * (x - a) / (b - a)

/-- `np.clip(x, lo, hi) = min hi (max lo x)` (hi wins when `lo > hi`). -/
def npClip (x lo hi : α) : α := min hi (max lo x)

/-- Round half to even (`np.round` / Python `round`), as an integer. -/
def rhe [FloorRing α] (x : α) : ℤ :=
  if Int.fract x < 1 / 2 then ⌊x⌋
  else if 1 / 2 < Int.fract x then ⌊x⌋ + 1
  else if ⌊x⌋ % 2 = 0 then ⌊x⌋ else ⌊x⌋ + 1

/-- `np.abs`. -/
def npAbs (x : α) : α := if x < 0 then -x else x

/-- Insert into a sorted list (used by the comparison sorts below). -/
def insertSorted {β : Type} (le : β → β → Bool) (a : β) : List β → List β
  | [] => [a]
  | b :: bs => if le a b then a :: b :: bs else b :: insertSorted le a bs

/-- A structural comparison sort (numpy's sorts are unstable, so any
comparison sort models them equally well). -/
def sortLe {β : Type} (le : β → β → Bool) : List β → List β
  | [] => []
  | a :: as => insertSorted le a (sortLe le as)

/-- `np.median` of a nonempty list (total helper: junk `0` on `[]`, a path
never taken with a well-formed argument; on `[]` the real `np.median`
returns `nan` without raising). -/
def npMedianT (l : List α) : α :=
  let s := sortLe (fun a b => decide (a ≤ b)) l
  if l.length % 2 = 1 then get0 s (l.length / 2)
  else (get0 s (l.length / 2 - 1) + get0 s (l.length / 2)) / 2

/-- `np.mean` (total helper; `np.mean([])` is `nan`, but every use in the
source is guarded by a later reduction that raises first on `[]`). -/
noncomputable def npMean (l : List ℝ) : ℝ := l.sum / l.length

/-- `np.std` (population standard deviation, `ddof = 0`). -/
noncomputable def npStd (l : List ℝ) : ℝ :=
  Real.sqrt (npMean (l.map fun x => (x - npMean l) ^ 2))

/-- `np.gradient` for a 1-D array of length ≥ 2: forward/backward
differences at the edges, centered differences inside. -/
def npGradient (l : List α) : List α :=
  (List.range l.length).map fun i =>
    if i = 0 then get0 l 1 - get0 l 0
    else if i = l.length - 1 then get0 l i - get0 l (i - 1)
    else (get0 l (i + 1) - get0 l (i - 1)) / 2

/-- Elementwise product with numpy broadcasting for 1-D arrays: equal
lengths multiply pointwise, a length-1 array scales the other, anything
else raises. -/
def npMul (a b : List α) : Option (List α) :=
  if a.length = b.length then some (List.zipWith (· * ·) a b)
  else if a.length = 1 then some (b.map fun y => get0 a 0 * y)
  else if b.length = 1 then some (a.map fun x => x * get0 b 0)
  else none

/-- Python slice `l[s:e]` (clamping, empty when `e ≤ s`). -/
def pySlice (l : List α) (s e : ℕ) : List α := (l.drop s).take (e - s)

/-! ### `scipy.signal` primitives

Transcribed from scipy's `_peak_finding_utils.pyx` (`_local_maxima_1d`,
`_select_by_peak_distance`, `_peak_prominences`, `_peak_widths`).  All loops
are written with explicit fuel so that they reduce by `rfl`/`decide`. -/

/-- Plateau scan of `_local_maxima_1d`: starting at `j` (fuel counts the
remaining steps), advance while `j < length - 1` and `x[j] = xi`. -/
def plateauEnd (x : List α) (xi : α) : ℕ → ℕ → ℕ
  | 0, j => j
  | fuel + 1, j => if j + 1 < x.length ∧ get0 x j = xi then plateauEnd x xi fuel (j + 1) else j

/-- Main loop of `_local_maxima_1d`: `i` runs over `1 ≤ i < length - 1`; a
sample strictly above its left neighbour starts a candidate plateau, which
is a maximum if the sample after the plateau is strictly below it; the
reported peak is the plateau midpoint. -/
def lmAux (x : List α) : ℕ → ℕ → List ℕ
  | 0, _ => []
  | fuel + 1, i =>
    if i + 1 < x.length then
      if get0 x (i - 1) < get0 x i then
        let j := plateauEnd x (get0 x i) x.length (i + 1)
        if get0 x j < get0 x i then
          (i + (j - 1)) / 2 :: lmAux x fuel (j + 1)
        else lmAux x fuel (i + 1)
      else lmAux x fuel (i + 1)
    else []

/-- `_local_maxima_1d(x)`: midpoints of all strict local maxima. -/
def localMaxima (x : List α) : List ℕ := lmAux x x.length 1

/-- Left clearing loop of `_select_by_peak_distance`: kill `keep[k]` for
`k = j-1, j-2, …` while `peaks[j] - peaks[k] < d`; fuel starts at `j`. -/
def sbpdClearLeft (peaks : List ℕ) (d : ℕ) (pj : ℤ) : ℕ → List Bool → List Bool
  | 0, keep => keep
  | k + 1, keep =>
    if pj - (peaks.getD k 0 : ℤ) < (d : ℤ) then sbpdClearLeft peaks d pj k (keep.set k false)
    else keep

/-- Right clearing loop of `_select_by_peak_distance`: kill `keep[k]` for
`k = j+1, j+2, …` while `peaks[k] - peaks[j] < d`. -/
def sbpdClearRight (peaks : List ℕ) (d : ℕ) (pj : ℤ) : ℕ → ℕ → List Bool → List Bool
  | 0, _, keep => keep
  | fuel + 1, k, keep =>
    if k < peaks.length ∧ (peaks.getD k 0 : ℤ) - pj < (d : ℤ) then
      sbpdClearRight peaks d pj fuel (k + 1) (keep.set k false)
    else keep

/-- Priority loop of `_select_by_peak_distance`: process peaks from highest
to lowest; a still-kept peak clears its too-close neighbours. -/
def sbpdLoop (peaks : List ℕ) (d : ℕ) : List ℕ → List Bool → List Bool
  | [], keep => keep
  | j :: rest, keep =>
    if keep.getD j false then
      let keep1 := sbpdClearLeft peaks d (peaks.getD j 0 : ℤ) j keep
      let keep2 := sbpdClearRight peaks d (peaks.getD j 0 : ℤ) (peaks.length - (j + 1)) (j + 1) keep1
      sbpdLoop peaks d rest keep2
    else sbpdLoop peaks d rest keep

/-- `_select_by_peak_distance(peaks, x[peaks], distance)`: the keep mask.
numpy's `argsort` on the priorities is unstable; a stable merge sort is used
here, which only matters for equal heights. -/
def sbpd (x : List α) (peaks : List ℕ) (d : ℕ) : List Bool :=
  let heights := peaks.map (get0 x)
  let priority :=
    (sortLe (fun a b => decide (heights.getD a 0 ≤ heights.getD b 0))
      (List.range peaks.length)).reverse
  sbpdLoop peaks d priority (List.replicate peaks.length true)

/-- Filter a list by a boolean mask (`peaks[keep]`). -/
def maskFilter : List ℕ → ℕ → List Bool → List ℕ
  | [], _, _ => []
  | p :: rest, i, keep =>
    if keep.getD i false then p :: maskFilter rest (i + 1) keep else maskFilter rest (i + 1) keep

/-- Left base scan of `_peak_prominences`: walk left from the peak while
`x[i] ≤ x[peak]`, tracking the running minimum and its position.  The fuel
argument is `i + 1` (so fuel `0` means the scan ran past index `0`). -/
def promLeftAux (x : List α) (xp : α) : ℕ → α → ℕ → α × ℕ
  | 0, m, b => (m, b)
  | i + 1, m, b =>
    if get0 x i ≤ xp then
      if get0 x i < m then promLeftAux x xp i (get0 x i) i else promLeftAux x xp i m b
    else (m, b)

/-- Right base scan of `_peak_prominences`: walk right from the peak while
`i ≤ length - 1` and `x[i] ≤ x[peak]`. -/
def promRightAux (x : List α) (xp : α) : ℕ → ℕ → α → ℕ → α × ℕ
  | 0, _, m, b => (m, b)
  | fuel + 1, i, m, b =>
    if i ≤ x.length - 1 ∧ get0 x i ≤ xp then
      if get0 x i < m then promRightAux x xp fuel (i + 1) (get0 x i) i
      else promRightAux x xp fuel (i + 1) m b
    else (m, b)

/-- `(left_min, left_base)` for one peak. -/
def promLeft (x : List α) (p : ℕ) : α × ℕ := promLeftAux x (get0 x p) (p + 1) (get0 x p) p

/-- `(right_min, right_base)` for one peak. -/
def promRight (x : List α) (p : ℕ) : α × ℕ :=
  promRightAux x (get0 x p) (x.length - p) p (get0 x p) p

/-- Prominence of one peak: `x[peak] - max(left_min, right_min)`. -/
def prominence (x : List α) (p : ℕ) : α :=
  get0 x p - max (promLeft x p).1 (promRight x p).1

/-- Left descent loop of `_peak_widths`: from `i = peak` walk left while
`imin < i` and `height < x[i]`; fuel is `i - imin`. -/
def wLeftAux (x : List α) (h : α) (imin : ℕ) : ℕ → ℕ → ℕ
  | 0, i => i
  | fuel + 1, i => if imin < i ∧ h < get0 x i then wLeftAux x h imin fuel (i - 1) else i

/-- Right descent loop of `_peak_widths`: from `i = peak` walk right while
`i < imax` and `height < x[i]`; fuel is `imax - i`. -/
def wRightAux (x : List α) (h : α) (imax : ℕ) : ℕ → ℕ → ℕ
  | 0, i => i
  | fuel + 1, i => if i < imax ∧ h < get0 x i then wRightAux x h imax fuel (i + 1) else i

/-- Left interpolated crossing point (`left_ips`) of `_peak_widths` for one
peak, at evaluation height `h`, bounded left by `imin` (the left base). -/
def leftIP (x : List α) (h : α) (imin p : ℕ) : α :=
  let i := wLeftAux x h imin (p - imin) p
  if get0 x i < h then (i : α) + (h - get0 x i) / (get0 x (i + 1) - get0 x i) else (i : α)

/-- Right interpolated crossing point (`right_ips`) of `_peak_widths`. -/
def rightIP (x : List α) (h : α) (p imax : ℕ) : α :=
  let i := wRightAux x h imax (imax - p) p
  if get0 x i < h then (i : α) - (h - get0 x i) / (get0 x (i - 1) - get0 x i) else (i : α)

/-- `peak_widths(x, [p], rel_height=0.5)` boundary pair
`(left_ips, right_ips)` for one peak. -/
def widthPair (x : List α) (p : ℕ) : α × α :=
  let h := get0 x p - prominence x p * (1 / 2)
  (leftIP x h (promLeft x p).2 p, rightIP x h p (promRight x p).2)

/-- `scipy.signal.find_peaks(x, distance=d, prominence=promMin)`: local
maxima, then the distance filter, then the prominence filter (this is the
order of `find_peaks` when only these two keywords are given). -/
def findPeaksProm (x : List α) (d : ℕ) (promMin : α) : List ℕ :=
  let p0 := localMaxima x
  let p1 := maskFilter p0 0 (sbpd x p0 d)
  p1.filter fun p => decide (promMin ≤ prominence x p)

/-- `scipy.signal.find_peaks(x, distance=d, height=hMin)`: local maxima,
then the height filter, then the distance filter. -/
def findPeaksHeight (x : List α) (d : ℕ) (hMin : α) : List ℕ :=
  let p0 := (localMaxima x).filter fun p => decide (hMin ≤ get0 x p)
  maskFilter p0 0 (sbpd x p0 d)

/-! ### Pipeline stages (`midi_framework.py`) -/

/-- `compute_note_segments(confidence, pitch_gradient, segment_threshold)`.
`seg_signal = (1 - confidence) * pitch_gradient` (broadcasting), min-max
rescaled; peaks with `distance=4, prominence=threshold`; each peak's
half-prominence width edges become note boundaries; segments of length ≤ 1
are discarded.  `none` models the exceptions raised on a broadcasting
mismatch or on `.min()`/`.max()` of an empty signal. -/
def computeNoteSegments [FloorRing α] (confidence pitchGradient : List α) (thr : α) :
    Option (List (ℕ × ℕ)) :=
  (npMul (confidence.map fun c => 1 - c) pitchGradient).bind fun segSignal =>
  (npMin segSignal).bind fun mn =>
  (npMax segSignal).bind fun mx =>
  let scaled := segSignal.map fun v => npInterp2 v mn mx 0 1
  let peaks := findPeaksProm scaled 4 thr
  let noteStarts := 0 :: peaks.map fun p => (rhe (widthPair scaled p).2).toNat
  let noteEnds := (peaks.map fun p => (rhe (widthPair scaled p).1).toNat) ++ [confidence.length]
  some ((noteStarts.zip noteEnds).filter fun se => decide (1 < se.2 - se.1))

/-- `create_notes(note_segments, midi_pitch, midi_velocity)`: one `Note` per
segment with `pitch = median(midi_pitch[s:e])`, `velocity =
max(midi_velocity[s:e])`.  `none` models the exception `np.max` raises on an
empty velocity slice (an empty pitch slice would really yield a silent
`nan` median; that corner is modelled as `none` too and is unreachable on
the verified paths, where both arrays have the same length). -/
def createNotes : List (ℕ × ℕ) → List α → List α → Option (List (Note α))
  | [], _, _ => some []
  | (s, e) :: rest, midiPitch, midiVelocity =>
    match pySlice midiPitch s e, pySlice midiVelocity s e with
    | p0 :: ps, v0 :: vs =>
      (createNotes rest midiPitch midiVelocity).map fun notes =>
        ⟨npMedianT (p0 :: ps), s, e, listMax (v0 :: vs)⟩ :: notes
    | _, _ => none

/-- `combine_notes()` closure inside `merge_notes`: flush the accumulated
run `comb` — nothing for an empty run, the note itself for a run of one,
and for a longer run a single note spanning `[first.start, last.end)` with
the median pitch and the maximal velocity of the run. -/
def combineNotes : List (Note α) → List (Note α)
  | [] => []
  | [n] => [n]
  | n1 :: n2 :: rest =>
    [⟨npMedianT ((n1 :: n2 :: rest).map (·.pitch)), n1.start,
      ((n2 :: rest).getLast (List.cons_ne_nil n2 rest)).end_,
      listMax ((n1 :: n2 :: rest).map (·.velocity))⟩]

/-- The `for n1, n2 in zip(notes, notes[1:])` loop of `merge_notes` with the
run accumulator `comb`; the fall-through arm is the trailing
`combine_notes()` call.  Note that only `n1` is ever appended to `comb`, so
the loop is faithful to the source's behaviour of never adding the final
note of the list to any run. -/
def mergeAux : List (Note α) → List (Note α) → List (Note α)
  | n1 :: n2 :: rest, comb =>
    if npAbs (n2.pitch - n1.pitch) < 1 / 2 then mergeAux (n2 :: rest) (comb ++ [n1])
    else combineNotes (comb ++ [n1]) ++ mergeAux (n2 :: rest) []
  | _, comb => combineNotes comb

/-- `merge_notes(notes)`. -/
def mergeNotes (notes : List (Note α)) : List (Note α) := mergeAux notes []

/-- `remove_short_quiet_notes(notes, min_note_duration, min_velocity)`:
keep notes with `end - start > min_note_duration * FPS` and
`velocity > min_velocity`. -/
def removeShortQuietNotes (notes : List (Note α)) (mnd mv : α) : List (Note α) :=
  notes.filter fun n =>
    decide (mnd * (FPS : α) < (n.end_ : α) - (n.start : α)) && decide (mv < n.velocity)

/-- `threshold_onset_activations(onset_activations, onset_threshold)`:
a 0/1 train with ones exactly at the peaks found with
`distance=4, height=threshold`. -/
def thresholdOnsetActivations (oa : List α) (thr : α) : List α :=
  let idx := findPeaksHeight oa 4 thr
  (List.range oa.length).map fun i => if i ∈ idx then 1 else 0

/-- Offset-passing loop behind `whereNZ`. -/
def whereNZAux : List α → ℕ → List ℕ
  | [], _ => []
  | x :: xs, i => if x ≠ 0 then i :: whereNZAux xs (i + 1) else whereNZAux xs (i + 1)

/-- `np.where(slice)[0]`: indices of the nonzero entries of a slice. -/
def whereNZ (l : List α) : List ℕ := whereNZAux l 0

/-- The inner `for split in split_indices` loop of `split_notes`: emit a
sub-note `(prev, split)` whenever `split - prev > min_split_duration * FPS`
and advance `prev`, otherwise skip the candidate. -/
def splitLoop (pitch velocity : α) (msd : α) : List ℕ → ℕ → List (Note α)
  | [], _ => []
  | s :: rest, prev =>
    if msd * (FPS : α) < (s : α) - (prev : α) then
      ⟨pitch, prev, s, velocity⟩ :: splitLoop pitch velocity msd rest s
    else splitLoop pitch velocity msd rest prev

/-- `split_notes(notes, onset_activations, min_split_duration)`: a note with
a nonzero (thresholded) onset inside `[start, end)` is re-split at the onset
positions plus a sentinel at `end`; a note without one passes unchanged. -/
def splitNotes : List (Note α) → List α → α → List (Note α)
  | [], _, _ => []
  | n :: rest, oa, msd =>
    (if (pySlice oa n.start n.end_).any (fun v => decide (v ≠ 0)) then
      splitLoop n.pitch n.velocity msd
        ((whereNZ (pySlice oa n.start n.end_)).map (· + n.start) ++ [n.end_]) n.start
    else [n]) ++ splitNotes rest oa msd

/-- The `while start < end and midi_velocity[start] < trim_threshold` loop
of `trim_notes`, with fuel `e - s`; `none` models the `IndexError` of an
out-of-range read. -/
def trimStartAux (vel : List α) (thr : α) : ℕ → ℕ → ℕ → Option ℕ
  | 0, s, _ => some s
  | fuel + 1, s, e =>
    if s < e then
      match vel[s]? with
      | none => none
      | some v => if v < thr then trimStartAux vel thr fuel (s + 1) e else some s
    else some s

/-- Entry point of the start-trimming loop. -/
def trimStart (vel : List α) (thr : α) (s e : ℕ) : Option ℕ :=
  trimStartAux vel thr (e - s) s e

/-- The `while start < end and midi_velocity[end - 1] < trim_threshold`
loop of `trim_notes`, with fuel `e - s`. -/
def trimEndAux (vel : List α) (thr : α) : ℕ → ℕ → ℕ → Option ℕ
  | 0, _, e => some e
  | fuel + 1, s, e =>
    if s < e then
      match vel[e - 1]? with
      | none => none
      | some v => if v < thr then trimEndAux vel thr fuel s (e - 1) else some e
    else some e

/-- Entry point of the end-trimming loop. -/
def trimEnd (vel : List α) (thr : α) (s e : ℕ) : Option ℕ :=
  trimEndAux vel thr (e - s) s e

/-- Trim one note: advance `start`, then retreat `end` (from the advanced
`start`), keeping pitch and velocity. -/
def trimNote (vel : List α) (thr : α) (n : Note α) : Option (Note α) :=
  (trimStart vel thr n.start n.end_).bind fun s =>
  (trimEnd vel thr s n.end_).map fun e => ⟨n.pitch, s, e, n.velocity⟩

/-- `trim_notes(notes, midi_velocity, trim_threshold)`. -/
def trimNotes : List (Note α) → List α → α → Option (List (Note α))
  | [], _, _ => some []
  | n :: rest, vel, thr =>
    (trimNote vel thr n).bind fun n' =>
    (trimNotes rest vel thr).map fun ns => n' :: ns

/-- `make_midi(notes, time)`: skip notes with `end - 1 ≤ start`, emit the
rest as events with rounded pitch/velocity and `time[start]`, `time[end-1]`
timestamps; `none` models the `IndexError` of an out-of-range timestamp
lookup. -/
def makeMidi [FloorRing α] : List (Note α) → List α → Option (List (NoteEvent α))
  | [], _ => some []
  | n :: rest, time =>
    if n.end_ ≤ n.start + 1 then makeMidi rest time
    else
      match time[n.start]?, time[n.end_ - 1]? with
      | some t0, some t1 =>
        (makeMidi rest time).map fun evs =>
          ⟨rhe n.pitch, rhe n.velocity, t0, t1⟩ :: evs
      | _, _ => none

/-! ### Real-valued stages and the pipeline entry point -/

/-- `rms_to_velocity(rms)`: clip to `[0, mean + 6·std]`, then rescale from
`[0, max(clipped)]` to `[0, 127]` with `np.interp`; `none` models the
exception `.max()` raises on an empty array (the only raising operation
here — there is no division-by-zero guard in the source). -/
noncomputable def rmsToVelocity (rms : List ℝ) : Option (List ℝ) :=
  let b := npMean rms + 6 * npStd rms
  let clipped := rms.map fun r => npClip r 0 b
  (npMax clipped).map fun m => clipped.map fun c => npInterp2 c 0 m 0 127

/-- `librosa.hz_to_midi(f) = 12 * (log2 f - log2 440) + 69`. -/
noncomputable def hzToMidi (f : ℝ) : ℝ := 12 * (Real.logb 2 f - Real.logb 2 440) + 69

/-- `compute_midi_pitch_and_gradient(frequency)`: MIDI pitch via
`hz_to_midi`, absolute centered gradient, min-max rescaled to `[0, 1]`;
`none` models the exception `np.gradient` raises on arrays of length < 2. -/
noncomputable def computeMidiPitchAndGradient (frequency : List ℝ) :
    Option (List ℝ × List ℝ) :=
  if frequency.length < 2 then none
  else
    let midiPitch := frequency.map hzToMidi
    let pg := (npGradient midiPitch).map npAbs
    some (midiPitch, pg.map fun v => npInterp2 v (listMin pg) (listMax pg) 0 1)

/-- `features_to_midi(onset_activations, time, frequency, confidence, rms,
…)`: the full pipeline.  The configuration parameters keep the source's
names (`segment_threshold`, `min_note_duration`, `min_velocity`,
`onset_threshold`, `min_split_duration`, `trim_threshold`). -/
noncomputable def featuresToMidi (onsetActivations time frequency confidence rms : List ℝ)
    (segment_threshold min_note_duration min_velocity onset_threshold : ℝ)
    (min_split_duration trim_threshold : ℝ) : Option (List (NoteEvent ℝ)) :=
  (rmsToVelocity rms).bind fun midiVelocity =>
  (computeMidiPitchAndGradient frequency).bind fun mg =>
  (computeNoteSegments confidence mg.2 segment_threshold).bind fun noteSegments =>
  (createNotes noteSegments mg.1 midiVelocity).bind fun notes0 =>
  let notes1 := mergeNotes notes0
  let notes2 := removeShortQuietNotes notes1 min_note_duration min_velocity
  let oa := thresholdOnsetActivations onsetActivations onset_threshold
  let notes3 := splitNotes notes2 oa min_split_duration
  (trimNotes notes3 midiVelocity trim_threshold).bind fun notes4 =>
  makeMidi notes4 time

/-! ### Concrete inputs used in the verification -/

/-- Thresholded onset train of scenario C: a single impulse at frame 150 in
a 200-frame signal. -/
def onsetTrain150 : List ℚ := List.replicate 150 0 ++ 1 :: List.replicate 49 0

/-- Onset train used to exercise `split_notes` on a short note: one impulse
at frame 4 of 9. -/
def onsetTrain4 : List ℚ := [0, 0, 0, 0, 1, 0, 0, 0, 0]

/-- Confidence track with a single dip at frame 6 of 10 (otherwise fully
confident). -/
def confDip10 : List ℝ := [1, 1, 1, 1, 1, 1, 0, 1, 1, 1]

/-- A strictly increasing 10-frame timestamp array at 100 fps. -/
noncomputable def time10 : List ℝ :=
  [0, 1 / 100, 2 / 100, 3 / 100, 4 / 100, 5 / 100, 6 / 100, 7 / 100, 8 / 100, 9 / 100]

/-- An 11-frame timestamp array: one frame longer than the other signals. -/
noncomputable def time11 : List ℝ :=
  [0, 1 / 100, 2 / 100, 3 / 100, 4 / 100, 5 / 100, 6 / 100, 7 / 100, 8 / 100, 9 / 100, 10 / 100]

/-! ### Trimming loop lemmas -/

/-- Characterization of a successful start trim: the start only moves
forward, stays at or below `max e s`, and if it stopped strictly before `e`
then it stopped on a readable velocity that clears the threshold. -/
theorem trimStartAux_some (vel : List α) (thr : α) :
    ∀ fuel s e s', e - s ≤ fuel → trimStartAux vel thr fuel s e = some s' →
      s ≤ s' ∧ s' ≤ max e s ∧ (s' < e → ∃ v, vel[s']? = some v ∧ ¬ v < thr) := by
  intro fuel
  induction fuel with
  | zero =>
    intro s e s' hfuel heq
    have hse : e ≤ s := Nat.sub_eq_zero_iff_le.mp (Nat.le_zero.mp hfuel)
    simp only [trimStartAux, Option.some.injEq] at heq
    subst heq
    exact ⟨le_rfl, le_max_right _ _, fun hlt => absurd hlt (not_lt.mpr hse)⟩
  | succ fuel ih =>
    intro s e s' hfuel heq
    rw [trimStartAux] at heq
    by_cases hse : s < e
    · rw [if_pos hse] at heq
      split at heq
      · exact absurd heq (by simp)
      · rename_i v hv
        split at heq
        · have hfuel' : e - (s + 1) ≤ fuel := by omega
          obtain ⟨h1, h2, h3⟩ := ih (s + 1) e s' hfuel' heq
          exact ⟨by omega, by omega, h3⟩
        · rename_i hvt
          cases heq
          exact ⟨le_rfl, le_max_of_le_left (le_of_lt hse), fun _ => ⟨v, hv, hvt⟩⟩
    · rw [if_neg hse] at heq
      cases heq
      exact ⟨le_rfl, le_max_right _ _, fun hlt => absurd hlt hse⟩

/-- Characterization of a successful end trim: the end only moves backward,
and if it stopped strictly after `s` then it stopped on a readable velocity
that clears the threshold. -/
theorem trimEndAux_some (vel : List α) (thr : α) :
    ∀ fuel s e e', e - s ≤ fuel → trimEndAux vel thr fuel s e = some e' →
      e' ≤ e ∧ (s ≤ e ∧ s ≤ e ∨ e' = e) ∧ s ≤ max e' s ∧
        (s < e' → ∃ v, vel[e' - 1]? = some v ∧ ¬ v < thr) ∧ (s ≤ e → s ≤ e') := by
  intro fuel
  induction fuel with
  | zero =>
    intro s e e' hfuel heq
    have hse : e ≤ s := Nat.sub_eq_zero_iff_le.mp (Nat.le_zero.mp hfuel)
    simp only [trimEndAux, Option.some.injEq] at heq
    subst heq
    refine ⟨le_rfl, Or.inr rfl, le_max_right _ _, fun hlt => absurd hlt (by omega), by omega⟩
  | succ fuel ih =>
    intro s e e' hfuel heq
    rw [trimEndAux] at heq
    by_cases hse : s < e
    · rw [if_pos hse] at heq
      split at heq
      · exact absurd heq (by simp)
      · rename_i v hv
        split at heq
        · have hfuel' : e - 1 - s ≤ fuel := by omega
          obtain ⟨h1, _, h3, h4, h5⟩ := ih s (e - 1) e' hfuel' heq
          exact ⟨by omega, Or.inl ⟨by omega, by omega⟩, h3, h4, fun _ => h5 (by omega)⟩
        · rename_i hvt
          cases heq
          exact ⟨le_rfl, Or.inr rfl, le_max_right _ _, fun _ => ⟨v, hv, hvt⟩, fun h => by omega⟩
    · rw [if_neg hse] at heq
      cases heq
      exact ⟨le_rfl, Or.inr rfl, le_max_right _ _, fun hlt => absurd (by omega : s < e) hse,
        fun h => h⟩

/-- A start trim that begins at a stopped position returns immediately. -/
theorem trimStart_stopped (vel : List α) (thr : α) (s e : ℕ)
    (h : ¬ s < e ∨ ∃ v, vel[s]? = some v ∧ ¬ v < thr) :
    trimStart vel thr s e = some s := by
  unfold trimStart
  rcases h with h | ⟨v, hv, hvt⟩
  · have : e - s = 0 := by omega
    rw [this]; rfl
  · by_cases hse : s < e
    · obtain ⟨k, hk⟩ : ∃ k, e - s = k + 1 := ⟨e - s - 1, by omega⟩
      rw [hk]
      simp only [trimStartAux, if_pos hse, hv, if_neg hvt]
    · have : e - s = 0 := by omega
      rw [this]; rfl

/-- An end trim that begins at a stopped position returns immediately. -/
theorem trimEnd_stopped (vel : List α) (thr : α) (s e : ℕ)
    (h : ¬ s < e ∨ ∃ v, vel[e - 1]? = some v ∧ ¬ v < thr) :
    trimEnd vel thr s e = some e := by
  unfold trimEnd
  rcases h with h | ⟨v, hv, hvt⟩
  · have : e - s = 0 := by omega
    rw [this]; rfl
  · by_cases hse : s < e
    · obtain ⟨k, hk⟩ : ∃ k, e - s = k + 1 := ⟨e - s - 1, by omega⟩
      rw [hk]
      simp only [trimEndAux, if_pos hse, hv, if_neg hvt]
    · have : e - s = 0 := by omega
      rw [this]; rfl

/-- A successfully trimmed note trims to itself on a second pass with the
same velocity array and threshold. -/
theorem trimNote_idem (vel : List α) (thr : α) (n n' : Note α)
    (h : trimNote vel thr n = some n') : trimNote vel thr n' = some n' := by
  unfold trimNote at h ⊢
  cases hs : trimStart vel thr n.start n.end_ with
  | none => rw [hs] at h; exact absurd h (by simp)
  | some s' =>
    rw [hs] at h
    simp only [Option.some_bind] at h
    cases he : trimEnd vel thr s' n.end_ with
    | none => rw [he] at h; exact absurd h (by simp)
    | some e' =>
      rw [he] at h
      simp only [Option.map_some, Option.map_some', Option.some.injEq] at h
      subst h
      obtain ⟨hs1, hs2, hs3⟩ :=
        trimStartAux_some vel thr (n.end_ - n.start) n.start n.end_ s' le_rfl hs
      obtain ⟨he1, _, _, he4, he5⟩ :=
        trimEndAux_some vel thr (n.end_ - s') s' n.end_ e' le_rfl he
      have hstart : trimStart vel thr s' e' = some s' := by
        by_cases hlt : s' < e'
        · exact trimStart_stopped vel thr s' e' (Or.inr (hs3 (by omega)))
        · exact trimStart_stopped vel thr s' e' (Or.inl hlt)
      have hend : trimEnd vel thr s' e' = some e' := by
        by_cases hlt : s' < e'
        · exact trimEnd_stopped vel thr s' e' (Or.inr (he4 hlt))
        · exact trimEnd_stopped vel thr s' e' (Or.inl hlt)
      simp only [hstart, hend, Option.some_bind, Option.map_some, Option.map_some']

/-- `trim_notes` processes the list pointwise. -/
theorem trimNotes_forall2 (vel : List α) (thr : α) :
    ∀ notes out, trimNotes notes vel thr = some out →
      List.Forall₂ (fun n n' => trimNote vel thr n = some n') notes out := by
  intro notes
  induction notes with
  | nil =>
    intro out h
    simp only [trimNotes, Option.some.injEq] at h
    subst h; exact List.Forall₂.nil
  | cons n rest ih =>
    intro out h
    simp only [trimNotes] at h
    cases hn : trimNote vel thr n with
    | none => rw [hn] at h; exact absurd h (by simp)
    | some n' =>
      rw [hn] at h
      simp only [Option.some_bind] at h
      cases hr : trimNotes rest vel thr with
      | none => rw [hr] at h; exact absurd h (by simp)
      | some outs =>
        rw [hr] at h
        simp only [Option.map_some, Option.map_some', Option.some.injEq] at h
        subst h
        exact List.Forall₂.cons hn (ih outs hr)

/-- A successful single-note trim moves both boundaries inward. -/
theorem trimNote_le (vel : List α) (thr : α) (n n' : Note α)
    (hse : n.start ≤ n.end_) (h : trimNote vel thr n = some n') :
    n.start ≤ n'.start ∧ n'.start ≤ n'.end_ ∧ n'.end_ ≤ n.end_ ∧
      n'.pitch = n.pitch ∧ n'.velocity = n.velocity := by
  unfold trimNote at h
  cases hs : trimStart vel thr n.start n.end_ with
  | none => rw [hs] at h; exact absurd h (by simp)
  | some s' =>
    rw [hs] at h
    simp only [Option.some_bind] at h
    cases he : trimEnd vel thr s' n.end_ with
    | none => rw [he] at h; exact absurd h (by simp)
    | some e' =>
      rw [he] at h
      simp only [Option.map_some, Option.map_some', Option.some.injEq] at h
      subst h
      obtain ⟨hs1, hs2, _⟩ :=
        trimStartAux_some vel thr (n.end_ - n.start) n.start n.end_ s' le_rfl hs
      obtain ⟨he1, _, _, _, he5⟩ :=
        trimEndAux_some vel thr (n.end_ - s') s' n.end_ e' le_rfl he
      have hs'e : s' ≤ n.end_ := by omega
      exact ⟨hs1, he5 hs'e, he1, rfl, rfl⟩

/-! ### Splitting loop lemmas -/

/-- Indices returned by the `whereNZ` loop lie in `[i0, i0 + length)`. -/
theorem whereNZAux_mem_bound (l : List α) :
    ∀ i0 i, i ∈ whereNZAux l i0 → i0 ≤ i ∧ i < i0 + l.length := by
  induction l with
  | nil => intro i0 i hi; exact absurd hi (by simp [whereNZAux])
  | cons x xs ih =>
    intro i0 i hi
    rw [whereNZAux] at hi
    split at hi
    · rcases List.mem_cons.mp hi with hi | hi
      · subst hi; simp
      · have := ih (i0 + 1) i hi
        constructor <;> [omega; simpa [Nat.add_comm, Nat.add_left_comm] using this.2]
    · have := ih (i0 + 1) i hi
      constructor <;> [omega; simpa [Nat.add_comm, Nat.add_left_comm] using this.2]

/-- Indices returned by `whereNZ` are positions of the argument. -/
theorem whereNZ_lt (l : List α) : ∀ i ∈ whereNZ l, i < l.length := by
  intro i hi
  have := whereNZAux_mem_bound l 0 i hi
  omega

/-- A Python slice `l[s:e]` has at most `e - s` elements. -/
theorem pySlice_length_le (l : List α) (s e : ℕ) : (pySlice l s e).length ≤ e - s := by
  simp only [pySlice, List.length_take]
  omega

/-- Every note emitted by the inner split loop carries the parent pitch and
velocity, starts at the running `prev` or at one of the split indices, ends
at one of the split indices, and is strictly longer than
`min_split_duration * FPS`. -/
theorem splitLoop_mem (p v msd : α) :
    ∀ idxs prev m, m ∈ splitLoop p v msd idxs prev →
      m.pitch = p ∧ m.velocity = v ∧ m.start ∈ prev :: idxs ∧ m.end_ ∈ idxs ∧
        msd * (FPS : α) < (m.end_ : α) - (m.start : α) := by
  intro idxs
  induction idxs with
  | nil => intro prev m hm; exact absurd hm (by simp [splitLoop])
  | cons s rest ih =>
    intro prev m hm
    rw [splitLoop] at hm
    split at hm
    · rename_i hcond
      rcases List.mem_cons.mp hm with hm | hm
      · subst hm
        exact ⟨rfl, rfl, List.mem_cons_self _ _, List.mem_cons_self _ _, hcond⟩
      · obtain ⟨h1, h2, h3, h4, h5⟩ := ih s m hm
        exact ⟨h1, h2, List.mem_cons_of_mem _ h3, List.mem_cons_of_mem _ h4, h5⟩
    · obtain ⟨h1, h2, h3, h4, h5⟩ := ih prev m hm
      refine ⟨h1, h2, ?_, List.mem_cons_of_mem _ h4, h5⟩
      rcases List.mem_cons.mp h3 with h3 | h3
      · exact h3 ▸ List.mem_cons_self _ _
      · exact List.mem_cons_of_mem _ (List.mem_cons_of_mem _ h3)

/-- When the split indices are sorted, the notes emitted by the inner split
loop are ordered and non-overlapping. -/
theorem splitLoop_pairwise (p v msd : α) :
    ∀ idxs prev, idxs.Pairwise (· ≤ ·) →
      (splitLoop p v msd idxs prev).Pairwise fun a b => a.end_ ≤ b.start := by
  intro idxs
  induction idxs with
  | nil => intro prev _; simp [splitLoop]
  | cons s rest ih =>
    intro prev hsorted
    rw [splitLoop]
    rw [List.pairwise_cons] at hsorted
    split
    · refine List.Pairwise.cons ?_ (ih s hsorted.2)
      intro m hm
      have h3 := (splitLoop_mem p v msd rest s m hm).2.2.1
      rcases List.mem_cons.mp h3 with h3 | h3
      · simp [h3]
      · exact hsorted.1 _ h3
    · exact ih prev hsorted.2

/-- Split indices generated for a note all lie at or below the note end. -/
theorem splitIdx_le (oa : List α) (s e : ℕ) :
    ∀ i ∈ (whereNZ (pySlice oa s e)).map (· + s) ++ [e], i ≤ e := by
  intro i hi
  rcases List.mem_append.mp hi with hi | hi
  · obtain ⟨j, hj, rfl⟩ := List.mem_map.mp hi
    have hjl := whereNZ_lt _ j hj
    have := pySlice_length_le oa s e
    omega
  · simp only [List.mem_singleton] at hi
    omega

/-- Split indices generated for a note all lie at or above the note start,
provided the note is nonempty (`s < e`, which holds whenever the slice
contains a nonzero entry). -/
theorem splitIdx_ge (oa : List α) (s e : ℕ) (hse : s ≤ e) :
    ∀ i ∈ (whereNZ (pySlice oa s e)).map (· + s) ++ [e], s ≤ i := by
  intro i hi
  rcases List.mem_append.mp hi with hi | hi
  · obtain ⟨j, hj, rfl⟩ := List.mem_map.mp hi
    omega
  · simp only [List.mem_singleton] at hi
    omega

/-- The `whereNZ` loop returns strictly increasing indices. -/
theorem whereNZAux_sorted (l : List α) :
    ∀ i0, (whereNZAux l i0).Pairwise (· < ·) := by
  induction l with
  | nil => intro i0; simp [whereNZAux]
  | cons x xs ih =>
    intro i0
    rw [whereNZAux]
    split
    · refine List.Pairwise.cons ?_ (ih (i0 + 1))
      intro j hj
      have := whereNZAux_mem_bound xs (i0 + 1) j hj
      omega
    · exact ih (i0 + 1)

/-- `whereNZ` returns strictly increasing indices. -/
theorem whereNZ_sorted (l : List α) : (whereNZ l).Pairwise (· < ·) :=
  whereNZAux_sorted l 0

/-- The split-index list of a note is sorted. -/
theorem splitIdxs_sorted (oa : List α) (s e : ℕ) :
    ((whereNZ (pySlice oa s e)).map (· + s) ++ [e]).Pairwise (· ≤ ·) := by
  rw [List.pairwise_append]
  refine ⟨?_, by simp, ?_⟩
  · exact ((whereNZ_sorted (pySlice oa s e)).map _ (by intro a b h; omega))
  · intro a ha b hb
    simp only [List.mem_singleton] at hb
    rw [hb]
    exact splitIdx_le oa s e a (List.mem_append_left _ ha)

/-- An element of the right list of a `Forall₂` has a related witness on
the left. -/
theorem forall2_mem_right {β γ : Type} {R : β → γ → Prop} :
    ∀ {l1 : List β} {l2 : List γ}, List.Forall₂ R l1 l2 → ∀ b ∈ l2, ∃ a ∈ l1, R a b := by
  intro l1 l2 h
  induction h with
  | nil => intro b hb; exact absurd hb (by simp)
  | cons hr _ ih =>
    intro b hb
    rcases List.mem_cons.mp hb with hb | hb
    · exact ⟨_, List.mem_cons_self _ _, hb ▸ hr⟩
    · obtain ⟨a, ha, har⟩ := ih b hb
      exact ⟨a, List.mem_cons_of_mem _ ha, har⟩

/-- Folding `max` only grows the accumulator and dominates every element. -/
theorem foldl_max_facts (xs : List α) :
    ∀ a, a ≤ xs.foldl max a ∧ ∀ x ∈ xs, x ≤ xs.foldl max a := by
  induction xs with
  | nil => intro a; exact ⟨le_rfl, by simp⟩
  | cons y ys ih =>
    intro a
    obtain ⟨h1, h2⟩ := ih (max a y)
    refine ⟨by rw [List.foldl_cons]; exact le_trans (le_max_left a y) h1, ?_⟩
    intro x hx
    rw [List.foldl_cons]
    rcases List.mem_cons.mp hx with hx | hx
    · subst hx; exact le_trans (le_max_right a x) h1
    · exact h2 x hx

/-- A fold of `max` returns the accumulator or one of the elements. -/
theorem foldl_max_mem (xs : List α) : ∀ a, xs.foldl max a ∈ a :: xs := by
  induction xs with
  | nil => intro a; simp
  | cons y ys ih =>
    intro a
    have := ih (max a y)
    rcases max_choice a y with hm | hm <;>
      rcases List.mem_cons.mp this with h | h <;>
      simp [List.foldl_cons, h, hm] at * <;> simp [h, hm]

/-- Every element is at most `listMax`. -/
theorem le_listMax (l : List α) (x : α) (hx : x ∈ l) : x ≤ listMax l := by
  cases l with
  | nil => exact absurd hx (by simp)
  | cons y ys =>
    rcases List.mem_cons.mp hx with h | h
    · exact h ▸ (foldl_max_facts ys y).1
    · exact (foldl_max_facts ys y).2 x h

/-- `listMax` of a nonempty list is one of its elements. -/
theorem listMax_mem (l : List α) (hl : l ≠ []) : listMax l ∈ l := by
  cases l with
  | nil => exact absurd rfl hl
  | cons y ys => exact foldl_max_mem ys y

/-- `npMax` succeeds exactly on nonempty lists, with value `listMax`. -/
theorem npMax_eq_some (l : List α) (m : α) (h : npMax l = some m) :
    l ≠ [] ∧ m = listMax l := by
  cases l with
  | nil => exact absurd h (by simp [npMax])
  | cons y ys =>
    simp only [npMax, Option.some.injEq] at h
    exact ⟨by simp, h.symm⟩

/-- The `whereNZ` loop finds nothing in an all-zero block. -/
theorem whereNZAux_replicate_zero : ∀ (m i : ℕ), whereNZAux (List.replicate m (0 : α)) i = [] := by
  intro m
  induction m with
  | zero => intro i; rfl
  | succ m ih =>
    intro i
    rw [List.replicate_succ, whereNZAux, if_neg (by simp)]
    exact ih (i + 1)

/-- The `whereNZ` loop distributes over append, shifting the offset. -/
theorem whereNZAux_append (l1 l2 : List α) :
    ∀ i, whereNZAux (l1 ++ l2) i = whereNZAux l1 i ++ whereNZAux l2 (i + l1.length) := by
  induction l1 with
  | nil => intro i; simp [whereNZAux]
  | cons x xs ih =>
    intro i
    rw [List.cons_append, whereNZAux, whereNZAux]
    have hoff : i + 1 + xs.length = i + (x :: xs).length := by
      rw [List.length_cons]; omega
    by_cases hx : x ≠ 0
    · rw [if_pos hx, if_pos hx, ih (i + 1), List.cons_append, hoff]
    · rw [if_neg hx, if_neg hx, ih (i + 1), hoff]

/-- `make_midi` behaves as if the collapsed notes (`end - 1 ≤ start`) had
been filtered away first: they are dropped at emission. -/
theorem makeMidi_drop_collapsed [FloorRing α] (notes : List (Note α)) (time : List α) :
    makeMidi notes time = makeMidi (notes.filter fun n => decide (n.start + 1 < n.end_)) time := by
  induction notes with
  | nil => rfl
  | cons n rest ih =>
    by_cases hc : n.end_ ≤ n.start + 1
    · have hfilter : (decide (n.start + 1 < n.end_)) = false := by
        simp only [decide_eq_false_iff_not]; omega
      rw [makeMidi, if_pos hc, List.filter_cons, hfilter]
      simpa using ih
    · have hfilter : (decide (n.start + 1 < n.end_)) = true := by
        simp only [decide_eq_true_eq]; omega
      rw [makeMidi, if_neg hc, List.filter_cons, hfilter]
      simp only [eq_self_iff_true, if_true]
      rw [makeMidi, if_neg hc, ih]

/-! ### Claim theorems -/

/-- Claim C1 (code bug): `merge_notes` never appends the final note of the
input list to any run (`zip(notes, notes[1:])` stops one short and only
`n1` is ever pushed onto `comb`), so the final run is flushed without its
last element.  On the failing input — a single note — `merge_notes` returns
`[]` instead of `[note]`; on a two-note run it flushes only the first note
instead of the merged `[first.start, last.end)` span. -/
theorem C1_thm :
    mergeNotes ([⟨60, 0, 5, 100⟩] : List (Note ℚ)) = [] ∧
    mergeNotes ([⟨60, 0, 5, 100⟩, ⟨60, 5, 9, 90⟩] : List (Note ℚ)) = [⟨60, 0, 5, 100⟩] := by
  refine ⟨rfl, ?_⟩
  norm_num [mergeNotes, mergeAux, combineNotes, npAbs]

/-- Claim C6, counterexample: `trim_notes` can collapse a note to
`start = end` and still passes it forward (it is only dropped later, at
emission), contradicting the claim that every stage drops notes whose
duration collapses. -/
theorem C6_cex :
    trimNotes ([⟨60, 0, 2, 5⟩] : List (Note ℚ)) [0, 0] 1 = some [⟨60, 2, 2, 5⟩] ∧
    ¬ ((⟨60, 2, 2, 5⟩ : Note ℚ).start < (⟨60, 2, 2, 5⟩ : Note ℚ).end_) := by
  constructor
  · rfl
  · decide

/-- Claim C8: splitting a `[0, 200)` note on a thresholded onset train with
its only impulse at frame 150 yields exactly `[0, 150)` and `[150, 200)`,
both with the parent pitch and velocity, whenever
`min_split_duration * FPS < 50`. -/
theorem C8_thm (p v msd : ℚ) (h : msd * (FPS : ℚ) < 50) :
    splitNotes [⟨p, 0, 200, v⟩] onsetTrain150 msd =
      [⟨p, 0, 150, v⟩, ⟨p, 150, 200, v⟩] := by
  have hF : ((FPS : ℕ) : ℚ) = 100 := by norm_num [FPS]
  rw [hF] at h
  have hlen : onsetTrain150.length = 200 := by
    rw [onsetTrain150, List.length_append, List.length_replicate, List.length_cons,
      List.length_replicate]
  have hslice : pySlice onsetTrain150 0 200 = onsetTrain150 := by
    rw [pySlice, List.drop_zero, List.take_of_length_le (by omega)]
  have hany : (onsetTrain150.any fun v => decide (v ≠ 0)) = true := by
    rw [onsetTrain150, List.any_append, List.any_cons]
    simp
  have hwhere : whereNZ onsetTrain150 = [150] := by
    rw [whereNZ, onsetTrain150, whereNZAux_append, whereNZAux_replicate_zero, whereNZAux,
      if_pos one_ne_zero, whereNZAux_replicate_zero]
    simp
  rw [splitNotes, splitNotes, List.append_nil]
  rw [show (⟨p, 0, 200, v⟩ : Note ℚ).start = 0 from rfl,
    show (⟨p, 0, 200, v⟩ : Note ℚ).end_ = 200 from rfl, hslice, hany]
  rw [if_pos rfl, hwhere]
  rw [show ([150].map (· + 0) ++ [200] : List ℕ) = [150, 200] from by simp]
  rw [splitLoop, if_pos (by rw [hF]; push_cast; linarith)]
  rw [splitLoop, if_pos (by rw [hF]; push_cast; linarith)]
  rw [splitLoop]

/-- Claim C8, witness: the scenario holds at the default
`min_split_duration = 0.03`. -/
theorem C8_wit :
    (3 / 100 : ℚ) * (FPS : ℚ) < 50 ∧
    splitNotes [(⟨69, 0, 200, 99⟩ : Note ℚ)] onsetTrain150 (3 / 100) =
      [⟨69, 0, 150, 99⟩, ⟨69, 150, 200, 99⟩] := by
  have h : (3 / 100 : ℚ) * (FPS : ℚ) < 50 := by norm_num [FPS]
  exact ⟨h, C8_thm 69 99 (3 / 100) h⟩

/-- Claim C9: `trim_notes` is idempotent — a second pass with the same
velocity array and threshold returns the already-trimmed list unchanged. -/
theorem C9_thm (notes : List (Note α)) (vel : List α) (thr : α) (out : List (Note α))
    (h : trimNotes notes vel thr = some out) : trimNotes out vel thr = some out := by
  induction notes generalizing out with
  | nil =>
    simp only [trimNotes, Option.some.injEq] at h
    subst h; rfl
  | cons n rest ih =>
    rw [trimNotes] at h
    cases hn : trimNote vel thr n with
    | none => rw [hn] at h; exact absurd h (by simp)
    | some n' =>
      rw [hn] at h
      simp only [Option.some_bind] at h
      cases hr : trimNotes rest vel thr with
      | none => rw [hr] at h; exact absurd h (by simp)
      | some outs =>
        rw [hr] at h
        simp only [Option.map_some, Option.map_some', Option.some.injEq] at h
        subst h
        rw [trimNotes, trimNote_idem vel thr n n' hn]
        simp only [Option.some_bind]
        rw [ih outs hr]
        rfl

/-- Claim C9, witness: a concrete already-trimmed note list is a fixed
point of `trim_notes`. -/
theorem C9_wit :
    trimNotes ([⟨60, 1, 3, 9⟩] : List (Note ℚ)) [0, 5, 5, 0] 1 = some [⟨60, 1, 3, 9⟩] :=
  C9_thm [⟨60, 0, 4, 9⟩] [0, 5, 5, 0] 1 [⟨60, 1, 3, 9⟩] rfl

/-- Claim C10, counterexample: a parent note with no onset impulse inside
is emitted unchanged by `split_notes` whatever its duration, so the output
need not exceed `min_split_duration * FPS` frames. -/
theorem C10_cex :
    splitNotes [(⟨60, 0, 2, 5⟩ : Note ℚ)] (List.replicate 5 0) (3 / 100) = [⟨60, 0, 2, 5⟩] ∧
    ¬ ((3 / 100 : ℚ) * (FPS : ℚ) <
        (((⟨60, 0, 2, 5⟩ : Note ℚ).end_ : ℚ) - ((⟨60, 0, 2, 5⟩ : Note ℚ).start : ℚ))) := by
  constructor
  · have hany : ((pySlice (List.replicate 5 (0 : ℚ)) 0 2).any fun v => decide (v ≠ 0)) = false := by
      simp [pySlice]
    rw [splitNotes, splitNotes, List.append_nil,
      show (⟨60, 0, 2, 5⟩ : Note ℚ).start = 0 from rfl,
      show (⟨60, 0, 2, 5⟩ : Note ℚ).end_ = 2 from rfl, hany]
    rw [if_neg (by simp)]
  · norm_num [FPS]

/-- Claim C10, amended: every output of `split_notes` for a single parent
carries the parent pitch and velocity and lies inside the parent span; a
sub-note produced by actual splitting is strictly longer than
`min_split_duration * FPS`, while a parent without an impulse inside is
passed through unchanged (whatever its duration); the outputs are ordered
and non-overlapping. -/
theorem C10_thm (n : Note ℚ) (oa : List ℚ) (msd : ℚ) :
    (∀ m ∈ splitNotes [n] oa msd,
        m.pitch = n.pitch ∧ m.velocity = n.velocity ∧ n.start ≤ m.start ∧ m.end_ ≤ n.end_ ∧
          (m = n ∨ msd * (FPS : ℚ) < (m.end_ : ℚ) - (m.start : ℚ))) ∧
    (splitNotes [n] oa msd).Pairwise fun a b => a.end_ ≤ b.start := by
  rw [splitNotes, splitNotes, List.append_nil]
  by_cases hc : ((pySlice oa n.start n.end_).any fun v => decide (v ≠ 0)) = true
  · rw [if_pos hc]
    have hone : 0 < (pySlice oa n.start n.end_).length := by
      rcases List.any_eq_true.mp hc with ⟨x, hx, _⟩
      exact List.length_pos.mpr (List.ne_nil_of_mem hx)
    have hse : n.start ≤ n.end_ := by
      have := pySlice_length_le oa n.start n.end_
      omega
    constructor
    · intro m hm
      obtain ⟨h1, h2, h3, h4, h5⟩ := splitLoop_mem n.pitch n.velocity msd _ n.start m hm
      refine ⟨h1, h2, ?_, splitIdx_le oa n.start n.end_ _ h4, Or.inr h5⟩
      rcases List.mem_cons.mp h3 with h3 | h3
      · omega
      · exact splitIdx_ge oa n.start n.end_ hse _ h3
    · exact splitLoop_pairwise n.pitch n.velocity msd _ n.start (splitIdxs_sorted oa _ _)
  · rw [if_neg hc]
    refine ⟨?_, by simp⟩
    intro m hm
    rw [List.mem_singleton] at hm
    subst hm
    exact ⟨rfl, rfl, le_rfl, le_rfl, Or.inl rfl⟩

/-- Claim C10, witness: a parent with one interior impulse splits into two
in-span sub-notes carrying its pitch. -/
theorem C10_wit :
    splitNotes [(⟨60, 0, 9, 50⟩ : Note ℚ)] onsetTrain4 (1 / 100) =
      [⟨60, 0, 4, 50⟩, ⟨60, 4, 9, 50⟩] ∧
    ∀ m ∈ splitNotes [(⟨60, 0, 9, 50⟩ : Note ℚ)] onsetTrain4 (1 / 100),
      m.pitch = (⟨60, 0, 9, 50⟩ : Note ℚ).pitch := by
  refine ⟨?_, fun m hm => ((C10_thm ⟨60, 0, 9, 50⟩ onsetTrain4 (1 / 100)).1 m hm).1⟩
  have hany : ((pySlice onsetTrain4 0 9).any fun v => decide (v ≠ 0)) = true := by
    norm_num [pySlice, onsetTrain4]
  have hwhere : whereNZ (pySlice onsetTrain4 0 9) = [4] := by
    norm_num [pySlice, onsetTrain4, whereNZ, whereNZAux]
  rw [splitNotes, splitNotes, List.append_nil,
    show (⟨60, 0, 9, 50⟩ : Note ℚ).start = 0 from rfl,
    show (⟨60, 0, 9, 50⟩ : Note ℚ).end_ = 9 from rfl, hany]
  rw [if_pos rfl, hwhere]
  rw [show ([4].map (· + 0) ++ [9] : List ℕ) = [4, 9] from by simp]
  rw [splitLoop, if_pos (by norm_num [FPS]), splitLoop, if_pos (by norm_num [FPS]), splitLoop]

/-! ### VelocityMapper lemmas (over `ℝ`) -/

/-- The mean of a list of non-negative reals is non-negative. -/
theorem npMean_nonneg (l : List ℝ) (h : ∀ r ∈ l, 0 ≤ r) : 0 ≤ npMean l :=
  div_nonneg (List.sum_nonneg h) (Nat.cast_nonneg _)

/-- Standard deviations are non-negative. -/
theorem npStd_nonneg (l : List ℝ) : 0 ≤ npStd l := Real.sqrt_nonneg _

/-- Claim C3, counterexample: on `rms` constant at `0`, `rms_to_velocity`
does not raise but returns velocity `127` at every frame, not `0`: with the
degenerate `xp = (0, 0)`, numpy's `interp` maps every key `≥ 0` to
`fp[-1] = 127` (the source has no division-by-zero guard; it inherits this
binary-search behaviour). -/
theorem C3_cex : rmsToVelocity [0, 0, 0] = some [127, 127, 127] ∧ (127 : ℝ) ≠ 0 := by
  have hmean : npMean [0, 0, 0] = 0 := by norm_num [npMean]
  have hstd : npStd [0, 0, 0] = 0 := by
    rw [npStd]
    norm_num [hmean, npMean, Real.sqrt_zero]
  refine ⟨?_, by norm_num⟩
  simp only [rmsToVelocity, hmean, hstd]
  norm_num [npClip, npMax, npInterp2]

/-- Claim C3, amended: for every non-negative `rms` array whose clipped
maximum is `0`, `rms_to_velocity` raises no error and returns velocity
`127` (not `0`) at every frame. -/
theorem C3_thm (rms : List ℝ) (h0 : ∀ r ∈ rms, 0 ≤ r)
    (hmax : npMax (rms.map fun r => npClip r 0 (npMean rms + 6 * npStd rms)) = some 0) :
    rmsToVelocity rms = some (List.replicate rms.length 127) := by
  obtain ⟨hne, hlm⟩ := npMax_eq_some _ _ hmax
  have hb : 0 ≤ npMean rms + 6 * npStd rms :=
    add_nonneg (npMean_nonneg rms h0) (mul_nonneg (by norm_num) (npStd_nonneg rms))
  have hall : ∀ c ∈ rms.map (fun r => npClip r 0 (npMean rms + 6 * npStd rms)), c = 0 := by
    intro c hc
    have h1 : c ≤ 0 := hlm ▸ le_listMax _ c hc
    have h2 : 0 ≤ c := by
      obtain ⟨r, hr, rfl⟩ := List.mem_map.mp hc
      exact le_min hb (le_max_left 0 r)
    linarith
  have hrep : rms.map (fun r => npClip r 0 (npMean rms + 6 * npStd rms)) =
      List.replicate rms.length 0 := by
    have := List.eq_replicate_of_mem hall
    simpa using this
  rw [hrep] at hmax
  simp only [rmsToVelocity, hrep, hmax, Option.map_some, Option.map_some', List.map_replicate]
  have : npInterp2 (0 : ℝ) 0 0 0 127 = 127 := by norm_num [npInterp2]
  rw [this]

/-- Claim C3, witness: the amended statement applies to `rms = [0, 0, 0]`. -/
theorem C3_wit : rmsToVelocity [0, 0, 0] = some (List.replicate 3 127) := by
  have hmean : npMean [0, 0, 0] = 0 := by norm_num [npMean]
  have hstd : npStd [0, 0, 0] = 0 := by
    rw [npStd]
    norm_num [hmean, npMean, Real.sqrt_zero]
  refine C3_thm [0, 0, 0] (by norm_num) ?_
  simp only [hmean, hstd]
  norm_num [npClip, npMax]

/-! ### Evaluation lemmas on constant (replicate) signals -/

/-- Indexing into a constant list. -/
theorem get0_replicate (n : ℕ) (c : α) (j : ℕ) :
    get0 (List.replicate n c) j = if j < n then c else 0 := by
  induction n generalizing j with
  | zero => simp [get0]
  | succ n ih =>
    cases j with
    | zero => simp [get0, List.replicate_succ]
    | succ j =>
      rw [List.replicate_succ]
      simp only [get0, List.getD_cons_succ] at ih ⊢
      rw [ih]
      by_cases hj : j < n
      · rw [if_pos hj, if_pos (by omega)]
      · rw [if_neg hj, if_neg (by omega)]

/-- Pointwise product of two constant lists. -/
theorem zipWith_mul_replicate (n : ℕ) (a b : α) :
    List.zipWith (· * ·) (List.replicate n a) (List.replicate n b) =
      List.replicate n (a * b) := by
  induction n with
  | zero => rfl
  | succ n ih => simp [List.replicate_succ, ih]

/-- Folding `min` only shrinks the accumulator. -/
theorem foldl_min_mem (xs : List α) : ∀ a, xs.foldl min a ∈ a :: xs := by
  induction xs with
  | nil => intro a; simp
  | cons y ys ih =>
    intro a
    have := ih (min a y)
    rcases min_choice a y with hm | hm <;>
      rcases List.mem_cons.mp this with h | h <;>
      simp [List.foldl_cons, h, hm] at * <;> simp [h, hm]

/-- `listMin` of a nonempty list is one of its elements. -/
theorem listMin_mem (l : List α) (hl : l ≠ []) : listMin l ∈ l := by
  cases l with
  | nil => exact absurd rfl hl
  | cons y ys => exact foldl_min_mem ys y

/-- `listMax` of a constant list. -/
theorem listMax_replicate (n : ℕ) (c : α) (hn : n ≠ 0) :
    listMax (List.replicate n c) = c := by
  have := listMax_mem (List.replicate n c) (by simp [hn])
  exact List.eq_of_mem_replicate this

/-- `listMin` of a constant list. -/
theorem listMin_replicate (n : ℕ) (c : α) (hn : n ≠ 0) :
    listMin (List.replicate n c) = c := by
  have := listMin_mem (List.replicate n c) (by simp [hn])
  exact List.eq_of_mem_replicate this

/-- `npMax` of a constant nonempty list. -/
theorem npMax_replicate (n : ℕ) (c : α) :
    npMax (List.replicate (n + 1) c) = some c := by
  have h1 : List.replicate (n + 1) c = c :: List.replicate n c := List.replicate_succ c n
  rw [h1, npMax]
  have : listMax (c :: List.replicate n c) = c := by
    rw [← h1]; exact listMax_replicate (n + 1) c (by omega)
  rw [show (List.replicate n c).foldl max c = listMax (c :: List.replicate n c) from rfl, this]

/-- A constant signal has no strict local maxima. -/
theorem lmAux_replicate (n : ℕ) (c : α) :
    ∀ fuel i, 0 < i → lmAux (List.replicate n c) fuel i = [] := by
  intro fuel
  induction fuel with
  | zero => intro i _; rfl
  | succ fuel ih =>
    intro i hi
    rw [lmAux]
    by_cases hb : i + 1 < (List.replicate n c).length
    · rw [if_pos hb]
      rw [List.length_replicate] at hb
      rw [get0_replicate n c (i - 1), get0_replicate n c i]
      rw [if_pos (show i - 1 < n by omega), if_pos (show i < n by omega)]
      rw [if_neg (lt_irrefl c)]
      exact ih (i + 1) (by omega)
    · rw [if_neg hb]

/-- `_local_maxima_1d` of a constant signal is empty. -/
theorem localMaxima_replicate (n : ℕ) (c : α) :
    localMaxima (List.replicate n c) = [] := by
  rw [localMaxima]
  exact lmAux_replicate n c _ 1 (by omega)

/-- `find_peaks(..., distance, prominence)` finds nothing in a constant
signal. -/
theorem findPeaksProm_replicate (n : ℕ) (c : α) (d : ℕ) (p : α) :
    findPeaksProm (List.replicate n c) d p = [] := by
  rw [findPeaksProm, localMaxima_replicate]
  rfl

/-- `find_peaks(..., distance, height)` finds nothing in a constant
signal. -/
theorem findPeaksHeight_replicate (n : ℕ) (c : α) (d : ℕ) (h : α) :
    findPeaksHeight (List.replicate n c) d h = [] := by
  rw [findPeaksHeight, localMaxima_replicate]
  rfl

/-- Thresholding an all-zero onset signal yields the all-zero impulse
train. -/
theorem thresholdOnsetActivations_zero (n : ℕ) (thr : α) :
    thresholdOnsetActivations (List.replicate n (0 : α)) thr = List.replicate n 0 := by
  rw [thresholdOnsetActivations, findPeaksHeight_replicate]
  have : ∀ i : ℕ, (if i ∈ ([] : List ℕ) then (1 : α) else 0) = 0 := by simp
  calc (List.range (List.replicate n (0 : α)).length).map
        (fun i => if i ∈ ([] : List ℕ) then (1 : α) else 0)
      = (List.range n).map (fun _ => (0 : α)) := by
        rw [List.length_replicate]
        exact List.map_congr_left fun i _ => this i
    _ = List.replicate n 0 := by
        rw [List.map_const', List.length_range]

/-- Mean of a constant list (nonempty). -/
theorem npMean_replicate (n : ℕ) (c : ℝ) (hn : n ≠ 0) :
    npMean (List.replicate n c) = c := by
  rw [npMean, List.sum_replicate, List.length_replicate, nsmul_eq_mul]
  field_simp

/-- Mean of an all-zero list (any length). -/
theorem npMean_replicate_zero (n : ℕ) : npMean (List.replicate n (0 : ℝ)) = 0 := by
  rw [npMean, List.sum_replicate, List.length_replicate]
  simp

/-- Standard deviation of a constant list is zero. -/
theorem npStd_replicate (n : ℕ) (c : ℝ) : npStd (List.replicate n c) = 0 := by
  rcases Nat.eq_zero_or_pos n with hn | hn
  · subst hn
    rw [npStd]
    norm_num [npMean]
  · rw [npStd, npMean_replicate n c (by omega), List.map_replicate]
    have : (c - c) ^ 2 = (0 : ℝ) := by ring
    rw [this, npMean_replicate_zero, Real.sqrt_zero]

/-- `npMin` of a constant nonempty list. -/
theorem npMin_replicate (n : ℕ) (c : α) :
    npMin (List.replicate (n + 1) c) = some c := by
  have h1 : List.replicate (n + 1) c = c :: List.replicate n c := List.replicate_succ c n
  rw [h1, npMin]
  have : listMin (c :: List.replicate n c) = c := by
    rw [← h1]; exact listMin_replicate (n + 1) c (by omega)
  rw [show (List.replicate n c).foldl min c = listMin (c :: List.replicate n c) from rfl, this]

/-- `npMax` of a constant nonempty list stated through `replicate_succ`. -/
theorem npMax_replicate' (n : ℕ) (c : α) (hn : n ≠ 0) :
    npMax (List.replicate n c) = some c := by
  obtain ⟨m, rfl⟩ : ∃ m, n = m + 1 := ⟨n - 1, by omega⟩
  exact npMax_replicate m c

/-- `npMin` of a constant nonempty list, general length. -/
theorem npMin_replicate' (n : ℕ) (c : α) (hn : n ≠ 0) :
    npMin (List.replicate n c) = some c := by
  obtain ⟨m, rfl⟩ : ∃ m, n = m + 1 := ⟨n - 1, by omega⟩
  exact npMin_replicate m c

/-- `np.gradient` of a constant signal of length ≥ 2 is all zero. -/
theorem npGradient_replicate (n : ℕ) (hn : 2 ≤ n) (c : α) :
    npGradient (List.replicate n c) = List.replicate n 0 := by
  rw [npGradient, List.length_replicate]
  have hpt : ∀ i ∈ List.range n,
      (if i = 0 then get0 (List.replicate n c) 1 - get0 (List.replicate n c) 0
       else if i = n - 1 then get0 (List.replicate n c) i - get0 (List.replicate n c) (i - 1)
       else (get0 (List.replicate n c) (i + 1) - get0 (List.replicate n c) (i - 1)) / 2) =
        (0 : α) := by
    intro i hi
    rw [List.mem_range] at hi
    by_cases h0 : i = 0
    · rw [if_pos h0, get0_replicate, get0_replicate, if_pos (by omega), if_pos (by omega),
        sub_self]
    · rw [if_neg h0]
      by_cases hlast : i = n - 1
      · rw [if_pos hlast, get0_replicate, get0_replicate, if_pos (by omega), if_pos (by omega),
          sub_self]
      · rw [if_neg hlast, get0_replicate, get0_replicate, if_pos (by omega), if_pos (by omega),
          sub_self, zero_div]
  calc (List.range n).map _
      = (List.range n).map (fun _ => (0 : α)) := List.map_congr_left hpt
    _ = List.replicate n 0 := by rw [List.map_const', List.length_range]

/-- `compute_midi_pitch_and_gradient` of a constant frequency: constant
pitch and a scaled gradient that is constant 1 (the degenerate min-max
rescale maps 0 via `np.interp(0, (0, 0), (0, 1)) = 1`). -/
theorem computeMidiPitchAndGradient_replicate (n : ℕ) (hn : 2 ≤ n) (f : ℝ) :
    computeMidiPitchAndGradient (List.replicate n f) =
      some (List.replicate n (hzToMidi f), List.replicate n 1) := by
  rw [computeMidiPitchAndGradient, if_neg (by rw [List.length_replicate]; omega)]
  have habs : npAbs (0 : ℝ) = 0 := by rw [npAbs, if_neg (lt_irrefl 0)]
  have hint : npInterp2 (0 : ℝ) 0 0 0 1 = 1 := by
    rw [npInterp2, if_neg (lt_irrefl 0), if_neg (lt_irrefl 0), if_pos le_rfl]
  simp only [List.map_replicate, npGradient_replicate n hn, habs,
    listMin_replicate n (0 : ℝ) (by omega), listMax_replicate n (0 : ℝ) (by omega), hint]

/-- The Segmenter on constant confidence 1 and constant scaled gradient 1:
the segmentation signal is constant, no peaks are found, and the single
segment `(0, n)` is produced. -/
theorem computeNoteSegments_ones (n : ℕ) (hn : 2 ≤ n) (thr : ℝ) :
    computeNoteSegments (List.replicate n (1 : ℝ)) (List.replicate n 1) thr =
      some [(0, n)] := by
  rw [computeNoteSegments]
  rw [List.map_replicate, sub_self]
  have hmul : npMul (List.replicate n (0 : ℝ)) (List.replicate n 1) =
      some (List.replicate n 0) := by
    rw [npMul, if_pos (by simp), zipWith_mul_replicate, zero_mul]
  rw [hmul, Option.some_bind, npMin_replicate' n 0 (by omega), Option.some_bind,
    npMax_replicate' n 0 (by omega), Option.some_bind]
  simp only [List.map_replicate]
  have hint : npInterp2 (0 : ℝ) 0 0 0 1 = 1 := by
    rw [npInterp2, if_neg (lt_irrefl 0), if_neg (lt_irrefl 0), if_pos le_rfl]
  rw [hint, findPeaksProm_replicate]
  simp only [List.map_nil, List.nil_append, List.zip_cons_cons, List.zip_nil_right,
    List.length_replicate, List.filter]
  have hdec : decide (1 < n - 0) = true := by
    simp only [decide_eq_true_eq]
    omega
  rw [hdec]

/-- `create_notes` on the single full segment over constant pitch and
velocity arrays. -/
theorem createNotes_single_replicate (m : ℕ) (P V : α) :
    createNotes [(0, m + 1)] (List.replicate (m + 1) P) (List.replicate (m + 1) V) =
      some [⟨npMedianT (List.replicate (m + 1) P), 0, m + 1,
        listMax (List.replicate (m + 1) V)⟩] := by
  have hslice : ∀ c : α, pySlice (List.replicate (m + 1) c) 0 (m + 1) =
      c :: List.replicate m c := by
    intro c
    rw [pySlice, List.drop_zero, Nat.sub_zero, List.take_replicate, min_self,
      List.replicate_succ]
  rw [createNotes, hslice, hslice, createNotes]
  simp only [Option.map_some, Option.map_some', Option.some.injEq, List.cons.injEq, and_true]
  rw [← List.replicate_succ, ← List.replicate_succ]

/-- `create_notes` on the single full segment, stated for a positive
length given as a bare numeral. -/
theorem createNotes_single_replicate' (n : ℕ) (hn : n ≠ 0) (P V : α) :
    createNotes [(0, n)] (List.replicate n P) (List.replicate n V) =
      some [⟨npMedianT (List.replicate n P), 0, n, listMax (List.replicate n V)⟩] := by
  obtain ⟨m, rfl⟩ : ∃ m, n = m + 1 := ⟨n - 1, by omega⟩
  exact createNotes_single_replicate m P V

/-- `merge_notes` on a singleton list drops the note: the pair loop never
runs and the final flush sees an empty run. -/
theorem mergeNotes_single (n : Note α) : mergeNotes [n] = [] := rfl

/-- `rms_to_velocity` of a constant non-negative signal is constant 127
(note: this includes the all-zero signal). -/
theorem rmsToVelocity_replicate (n : ℕ) (c : ℝ) (hn : n ≠ 0) (hc : 0 ≤ c) :
    rmsToVelocity (List.replicate n c) = some (List.replicate n 127) := by
  obtain ⟨m, rfl⟩ : ∃ m, n = m + 1 := ⟨n - 1, by omega⟩
  have hb : npMean (List.replicate (m + 1) c) + 6 * npStd (List.replicate (m + 1) c) = c := by
    rw [npMean_replicate _ _ (by omega), npStd_replicate]
    ring
  have hclip : npClip c 0 c = c := by
    rw [npClip, max_eq_right hc, min_self]
  simp only [rmsToVelocity, hb, List.map_replicate, hclip, npMax_replicate,
    Option.map_some, Option.map_some']
  have : npInterp2 c 0 c 0 127 = 127 := by
    rw [npInterp2, if_neg (lt_irrefl c), if_neg (not_lt.mpr hc), if_pos le_rfl]
  rw [this]

/-- Full-pipeline evaluation of scenario B — `confidence ≡ 1.0`,
`frequency ≡ 440`, `rms ≡ 1`, no onsets, T = 200 frames at 100 fps,
default configuration: the Segmenter yields the single segment `(0, 200)`
and `create_notes` one note, but `merge_notes` drops it (the final-note
bug), so the pipeline emits no event at all. -/
theorem scenarioB_eval :
    featuresToMidi (List.replicate 200 0) ((List.range 200).map fun k => (k : ℝ) / 100)
      (List.replicate 200 440) (List.replicate 200 1) (List.replicate 200 1)
      0.001 0.03 6 0.8 0.03 1 = some [] := by
  simp only [featuresToMidi, rmsToVelocity_replicate 200 1 (by omega) (by norm_num),
    Option.some_bind, computeMidiPitchAndGradient_replicate 200 (by omega) 440,
    computeNoteSegments_ones 200 (by omega), createNotes_single_replicate' 200 (by omega),
    mergeNotes_single]
  rfl

/-- Claim C2 (code bug): in scenario B the pipeline emits no `NoteEvent`
at all instead of the single pitch-69 event the claim (and the intended
merge behaviour) predicts, because `merge_notes` drops the final — here the
only — note. -/
theorem C2_thm :
    featuresToMidi (List.replicate 200 0) ((List.range 200).map fun k => (k : ℝ) / 100)
      (List.replicate 200 440) (List.replicate 200 1) (List.replicate 200 1)
      0.001 0.03 6 0.8 0.03 1 = some [] ∧
    ∀ evs, featuresToMidi (List.replicate 200 0) ((List.range 200).map fun k => (k : ℝ) / 100)
      (List.replicate 200 440) (List.replicate 200 1) (List.replicate 200 1)
      0.001 0.03 6 0.8 0.03 1 = some evs → evs.length = 0 := by
  refine ⟨scenarioB_eval, fun evs h => ?_⟩
  rw [scenarioB_eval] at h
  cases h
  rfl

theorem sigEval : confDip10.map (fun c => (1:ℝ) - c) = [0,0,0,0,0,0,1,0,0,0] := by
  norm_num [confDip10]

theorem mulEval : npMul [0,0,0,0,0,0,(1:ℝ),0,0,0] (List.replicate 10 (1:ℝ)) = some [0,0,0,0,0,0,1,0,0,0] := by
  have hrep : List.replicate 10 (1:ℝ) = [1,1,1,1,1,1,1,1,1,1] := rfl
  rw [hrep]
  norm_num [npMul]

theorem minEval : npMin [0,0,0,0,0,0,(1:ℝ),0,0,0] = some 0 := by
  norm_num [npMin, min_def]

theorem maxEval : npMax [0,0,0,0,0,0,(1:ℝ),0,0,0] = some 1 := by
  norm_num [npMax, max_def]

theorem scaledEval : ([0,0,0,0,0,0,(1:ℝ),0,0,0] : List ℝ).map (fun v => npInterp2 v 0 1 0 1) = [0,0,0,0,0,0,1,0,0,0] := by
  norm_num [npInterp2]

theorem get0Eval : ∀ i : ℕ, get0 ([0,0,0,0,0,0,(1:ℝ),0,0,0]) i = if i = 6 then 1 else 0 := by
  intro i
  match i with
  | 0 => norm_num [get0]
  | 1 => norm_num [get0]
  | 2 => norm_num [get0]
  | 3 => norm_num [get0]
  | 4 => norm_num [get0]
  | 5 => norm_num [get0]
  | 6 => norm_num [get0]
  | 7 => norm_num [get0]
  | 8 => norm_num [get0]
  | 9 => norm_num [get0]
  | n + 10 => simp [get0, List.getD]

theorem lmEval : localMaxima [0,0,0,0,0,0,(1:ℝ),0,0,0] = [6] := by
  have hx : ∀ i : ℕ, get0 ([0,0,0,0,0,0,(1:ℝ),0,0,0]) i = if i = 6 then 1 else 0 := get0Eval
  have hlen : ([0,0,0,0,0,0,(1:ℝ),0,0,0]).length = 10 := rfl
  have hpl : plateauEnd ([0,0,0,0,0,0,(1:ℝ),0,0,0]) (1 : ℝ) 10 7 = 7 := by
    rw [plateauEnd, hx 7]
    norm_num
  rw [localMaxima, hlen]
  rw [lmAux, if_pos (by rw [hlen]; omega), hx 0, hx 1, if_neg (by norm_num)]
  norm_num only
  rw [lmAux, if_pos (by rw [hlen]; omega), hx 1, hx 2, if_neg (by norm_num)]
  norm_num only
  rw [lmAux, if_pos (by rw [hlen]; omega), hx 2, hx 3, if_neg (by norm_num)]
  norm_num only
  rw [lmAux, if_pos (by rw [hlen]; omega), hx 3, hx 4, if_neg (by norm_num)]
  norm_num only
  rw [lmAux, if_pos (by rw [hlen]; omega), hx 4, hx 5, if_neg (by norm_num)]
  norm_num only
  rw [lmAux, if_pos (by rw [hlen]; omega), hx 5, hx 6, if_pos (by norm_num)]
  norm_num only [hlen]
  simp only [if_true]
  rw [hpl, hx 7, if_pos (by norm_num)]
  norm_num only
  rw [lmAux, if_pos (by rw [hlen]; omega), hx 7, hx 8, if_neg (by norm_num)]
  norm_num only
  rw [lmAux, if_neg (by rw [hlen]; omega)]

theorem hget9 :
    get0 ([0,0,0,0,0,0,(1:ℝ),0,0,0]) 0 = 0 ∧ get0 ([0,0,0,0,0,0,(1:ℝ),0,0,0]) 1 = 0 ∧
    get0 ([0,0,0,0,0,0,(1:ℝ),0,0,0]) 2 = 0 ∧ get0 ([0,0,0,0,0,0,(1:ℝ),0,0,0]) 3 = 0 ∧
    get0 ([0,0,0,0,0,0,(1:ℝ),0,0,0]) 4 = 0 ∧ get0 ([0,0,0,0,0,0,(1:ℝ),0,0,0]) 5 = 0 ∧
    get0 ([0,0,0,0,0,0,(1:ℝ),0,0,0]) 6 = 1 ∧ get0 ([0,0,0,0,0,0,(1:ℝ),0,0,0]) 7 = 0 ∧
    get0 ([0,0,0,0,0,0,(1:ℝ),0,0,0]) 8 = 0 ∧ get0 ([0,0,0,0,0,0,(1:ℝ),0,0,0]) 9 = 0 := by
  norm_num [get0]

theorem promLEval : promLeft [0,0,0,0,0,0,(1:ℝ),0,0,0] 6 = (0, 5) := by
  obtain ⟨h0, h1, h2, h3, h4, h5, h6, h7, h8, h9⟩ := hget9
  rw [promLeft, h6]
  rw [promLeftAux, h6, if_pos le_rfl, if_neg (lt_irrefl (1 : ℝ))]
  rw [promLeftAux, h5, if_pos (by norm_num), if_pos (by norm_num)]
  rw [promLeftAux, h4, if_pos (by norm_num), if_neg (by norm_num)]
  rw [promLeftAux, h3, if_pos (by norm_num), if_neg (by norm_num)]
  rw [promLeftAux, h2, if_pos (by norm_num), if_neg (by norm_num)]
  rw [promLeftAux, h1, if_pos (by norm_num), if_neg (by norm_num)]
  rw [promLeftAux, h0, if_pos (by norm_num), if_neg (by norm_num)]
  rw [promLeftAux]

theorem promREval : promRight [0,0,0,0,0,0,(1:ℝ),0,0,0] 6 = (0, 7) := by
  obtain ⟨h0, h1, h2, h3, h4, h5, h6, h7, h8, h9⟩ := hget9
  rw [promRight, h6]
  norm_num only [List.length_cons, List.length_nil]
  rw [promRightAux, h6, if_pos (by norm_num), if_neg (lt_irrefl (1 : ℝ))]
  rw [promRightAux, h7, if_pos (by norm_num), if_pos (by norm_num)]
  rw [promRightAux, h8, if_pos (by norm_num), if_neg (by norm_num)]
  rw [promRightAux, h9, if_pos (by norm_num), if_neg (by norm_num)]
  rw [promRightAux]

theorem promEval : prominence [0,0,0,0,0,0,(1:ℝ),0,0,0] 6 = 1 := by
  obtain ⟨h0, h1, h2, h3, h4, h5, h6, h7, h8, h9⟩ := hget9
  rw [prominence, promLEval, promREval, h6]
  norm_num

theorem sbpdEval : sbpd [0,0,0,0,0,0,(1:ℝ),0,0,0] [6] 4 = [true] := by
  rw [sbpd]
  simp only [List.map_cons, List.map_nil, List.length_cons, List.length_nil]
  rw [show List.range 1 = [0] from rfl]
  simp only [sortLe, insertSorted, List.reverse_cons, List.reverse_nil, List.nil_append,
    List.replicate]
  rw [sbpdLoop]
  simp only [List.getD_cons_zero, if_true]
  rw [sbpdClearLeft]
  simp only [List.length_cons, List.length_nil]
  norm_num only
  rw [sbpdClearRight, sbpdLoop]

theorem fpEval (thr : ℝ) (hthr : thr ≤ 1) :
    findPeaksProm [0,0,0,0,0,0,(1:ℝ),0,0,0] 4 thr = [6] := by
  rw [findPeaksProm, lmEval, sbpdEval]
  simp only [maskFilter, List.getD_cons_zero, if_pos rfl]
  have hd : (decide (thr ≤ prominence [0,0,0,0,0,0,(1:ℝ),0,0,0] 6)) = true := by
    rw [promEval]
    exact decide_eq_true hthr
  simp only [List.filter_cons, hd, List.filter_nil, cond_true, if_true]

theorem lipEval : leftIP [0,0,0,0,0,0,(1:ℝ),0,0,0] (1/2) 5 6 = 11/2 := by
  obtain ⟨h0, h1, h2, h3, h4, h5, h6, h7, h8, h9⟩ := hget9
  have hwl : wLeftAux [0,0,0,0,0,0,(1:ℝ),0,0,0] (1/2 : ℝ) 5 1 6 = 5 := by
    rw [wLeftAux, if_pos ⟨by norm_num, by rw [h6]; norm_num⟩, wLeftAux]
  rw [leftIP]
  norm_num only
  simp only [hwl, h5, h6]
  rw [if_pos (by norm_num)]
  norm_num

theorem ripEval : rightIP [0,0,0,0,0,0,(1:ℝ),0,0,0] (1/2) 6 7 = 13/2 := by
  obtain ⟨h0, h1, h2, h3, h4, h5, h6, h7, h8, h9⟩ := hget9
  have hwr : wRightAux [0,0,0,0,0,0,(1:ℝ),0,0,0] (1/2 : ℝ) 7 1 6 = 7 := by
    rw [wRightAux, if_pos ⟨by norm_num, by rw [h6]; norm_num⟩, wRightAux]
  rw [rightIP]
  norm_num only
  simp only [hwr, h7, h6]
  rw [if_pos (by norm_num)]
  norm_num

theorem wpEval : widthPair [0,0,0,0,0,0,(1:ℝ),0,0,0] 6 = (11/2, 13/2) := by
  obtain ⟨h0, h1, h2, h3, h4, h5, h6, h7, h8, h9⟩ := hget9
  rw [widthPair]
  simp only [promEval, promLEval, promREval, h6]
  have harg : (1 : ℝ) - 1 * (1 / 2) = 1 / 2 := by norm_num
  rw [harg, lipEval, ripEval]

theorem rheEval1 : rhe ((11 : ℝ) / 2) = 6 := by
  have hfl : ⌊(11 : ℝ) / 2⌋ = 5 := by
    apply Int.floor_eq_iff.mpr
    constructor <;> norm_num
  rw [rhe, Int.fract, hfl]
  norm_num

theorem rheEval2 : rhe ((13 : ℝ) / 2) = 6 := by
  have hfl : ⌊(13 : ℝ) / 2⌋ = 6 := by
    apply Int.floor_eq_iff.mpr
    constructor <;> norm_num
  rw [rhe, Int.fract, hfl]
  norm_num

theorem segEval10 (thr : ℝ) (hthr : thr ≤ 1) :
    computeNoteSegments confDip10 (List.replicate 10 (1 : ℝ)) thr = some [(0, 6), (6, 10)] := by
  rw [computeNoteSegments, sigEval, mulEval, Option.some_bind, minEval, Option.some_bind,
    maxEval, Option.some_bind]
  have hI0 : npInterp2 (0 : ℝ) 0 1 0 1 = 0 := by rw [npInterp2]; norm_num
  have hI1 : npInterp2 (1 : ℝ) 0 1 0 1 = 1 := by rw [npInterp2]; norm_num
  simp only [List.map_cons, List.map_nil, hI0, hI1, fpEval thr hthr, wpEval, rheEval1,
    rheEval2]
  rw [show Int.toNat 6 = 6 from rfl]
  norm_num [confDip10, List.filter]

theorem insertSorted_perm {β : Type} (le : β → β → Bool) (a : β) :
    ∀ l : List β, (insertSorted le a l).Perm (a :: l) := by
  intro l
  induction l with
  | nil => simp [insertSorted]
  | cons b bs ih =>
    rw [insertSorted]
    split
    · exact List.Perm.refl _
    · exact (List.Perm.cons b ih).trans (List.Perm.swap a b bs)

theorem sortLe_perm {β : Type} (le : β → β → Bool) :
    ∀ l : List β, (sortLe le l).Perm l := by
  intro l
  induction l with
  | nil => exact List.Perm.refl _
  | cons a as ih =>
    rw [sortLe]
    exact (insertSorted_perm le a _).trans (List.Perm.cons a ih)

theorem sortLe_replicate {β : Type} (le : β → β → Bool) (n : ℕ) (c : β) :
    sortLe le (List.replicate n c) = List.replicate n c := by
  have hp := sortLe_perm le (List.replicate n c)
  have hm : ∀ b ∈ sortLe le (List.replicate n c), b = c := by
    intro b hb
    exact List.eq_of_mem_replicate (hp.mem_iff.mp hb)
  have hl : (sortLe le (List.replicate n c)).length = n := by
    rw [hp.length_eq, List.length_replicate]
  rw [List.eq_replicate_of_mem hm, hl]

theorem npMedianT_replicate (n : ℕ) (c : α) (hn : n ≠ 0) :
    npMedianT (List.replicate n c) = c := by
  rw [npMedianT]
  simp only [sortLe_replicate, List.length_replicate]
  by_cases hodd : n % 2 = 1
  · rw [if_pos hodd, get0_replicate, if_pos (by omega)]
  · rw [if_neg hodd, get0_replicate, get0_replicate, if_pos (by omega), if_pos (by omega)]
    ring

theorem anyNZ_replicate_zero (n : ℕ) :
    ((List.replicate n (0 : α)).any fun v => decide (v ≠ 0)) = false := by
  induction n with
  | zero => rfl
  | succ n ih => simp [List.replicate_succ, List.any_cons, ih]

theorem rhe_intCast [FloorRing α] (z : ℤ) : rhe ((z : α)) = z := by
  rw [rhe, Int.fract_intCast, if_pos (by norm_num), Int.floor_intCast]

theorem hz129 : hzToMidi 14080 = 129 := by
  rw [hzToMidi]
  have hq : Real.logb 2 14080 - Real.logb 2 440 = 5 := by
    rw [← Real.logb_div (by norm_num) (by norm_num)]
    rw [show (14080 : ℝ) / 440 = 2 ^ (5 : ℕ) by norm_num]
    rw [Real.logb_pow]
    rw [Real.logb_self_eq_one (by norm_num)]
    norm_num
  rw [hq]
  norm_num

theorem createEval :
    createNotes [(0, 6), (6, 10)] (List.replicate 10 (129 : ℝ)) (List.replicate 10 (127 : ℝ)) =
      some [⟨129, 0, 6, 127⟩, ⟨129, 6, 10, 127⟩] := by
  have hs1 : ∀ c : ℝ, pySlice (List.replicate 10 c) 0 6 = c :: List.replicate 5 c := by
    intro c
    rw [pySlice, List.drop_zero, Nat.sub_zero, List.take_replicate,
      show min 6 10 = 6 from rfl, show List.replicate 6 c = c :: List.replicate 5 c from rfl]
  have hs2 : ∀ c : ℝ, pySlice (List.replicate 10 c) 6 10 = c :: List.replicate 3 c := by
    intro c
    rw [pySlice, List.drop_replicate, List.take_replicate]
    rw [show min (10 - 6) (10 - 6) = 4 from rfl,
      show List.replicate 4 c = c :: List.replicate 3 c from rfl]
  rw [createNotes, hs1, hs1, createNotes, hs2, hs2, createNotes]
  simp only [Option.map_some, Option.map_some', Option.some.injEq]
  rw [show (129 : ℝ) :: List.replicate 5 129 = List.replicate 6 129 from rfl,
    show (127 : ℝ) :: List.replicate 5 127 = List.replicate 6 127 from rfl,
    show (129 : ℝ) :: List.replicate 3 129 = List.replicate 4 129 from rfl,
    show (127 : ℝ) :: List.replicate 3 127 = List.replicate 4 127 from rfl]
  rw [npMedianT_replicate 6 (129 : ℝ) (by omega), npMedianT_replicate 4 (129 : ℝ) (by omega),
    listMax_replicate 6 (127 : ℝ) (by omega), listMax_replicate 4 (127 : ℝ) (by omega)]

theorem mergeEval :
    mergeNotes [(⟨129, 0, 6, 127⟩ : Note ℝ), ⟨129, 6, 10, 127⟩] = [⟨129, 0, 6, 127⟩] := by
  rw [mergeNotes, mergeAux]
  rw [if_pos (by norm_num [npAbs])]
  rfl

theorem rsqEval :
    removeShortQuietNotes [(⟨129, 0, 6, 127⟩ : Note ℝ)] 0.03 6 = [⟨129, 0, 6, 127⟩] := by
  rw [removeShortQuietNotes, List.filter_cons]
  have hc : (decide ((0.03 : ℝ) * (FPS : ℝ) < ((⟨129, 0, 6, 127⟩ : Note ℝ).end_ : ℝ) -
      ((⟨129, 0, 6, 127⟩ : Note ℝ).start : ℝ)) &&
      decide ((6 : ℝ) < (⟨129, 0, 6, 127⟩ : Note ℝ).velocity)) = true := by
    rw [Bool.and_eq_true, decide_eq_true_eq, decide_eq_true_eq]
    norm_num [FPS]
  rw [hc]
  simp only [List.filter_nil, if_true]

theorem splitEval :
    splitNotes [(⟨129, 0, 6, 127⟩ : Note ℝ)] (List.replicate 10 0) 0.03 = [⟨129, 0, 6, 127⟩] := by
  rw [splitNotes, splitNotes, List.append_nil]
  have hsl : pySlice (List.replicate 10 (0 : ℝ)) (⟨129, 0, 6, 127⟩ : Note ℝ).start
      (⟨129, 0, 6, 127⟩ : Note ℝ).end_ = List.replicate 6 0 := by
    rw [pySlice, List.drop_zero, List.take_replicate]
    rfl
  rw [hsl, anyNZ_replicate_zero]
  rw [if_neg (by norm_num)]

theorem trimEval :
    trimNotes [(⟨129, 0, 6, 127⟩ : Note ℝ)] (List.replicate 10 127) 1 = some [⟨129, 0, 6, 127⟩] := by
  have hv0 : (List.replicate 10 (127 : ℝ))[(0 : ℕ)]? = some 127 := rfl
  have hv5 : (List.replicate 10 (127 : ℝ))[(5 : ℕ)]? = some 127 := rfl
  have hstart : trimStart (List.replicate 10 (127 : ℝ)) 1 0 6 = some 0 := by
    rw [trimStart, show (6 : ℕ) - 0 = 6 from rfl, trimStartAux, if_pos (by omega), hv0]
    show (if (127 : ℝ) < 1 then trimStartAux (List.replicate 10 127) 1 5 (0 + 1) 6
      else some 0) = some 0
    rw [if_neg (by norm_num)]
  have hend : trimEnd (List.replicate 10 (127 : ℝ)) 1 0 6 = some 6 := by
    rw [trimEnd, show (6 : ℕ) - 0 = 6 from rfl, trimEndAux, if_pos (by omega),
      show (6 : ℕ) - 1 = 5 from rfl, hv5]
    show (if (127 : ℝ) < 1 then trimEndAux (List.replicate 10 127) 1 5 0 5
      else some 6) = some 6
    rw [if_neg (by norm_num)]
  rw [trimNotes, trimNote]
  norm_num only
  rw [hstart, Option.some_bind, hend]
  rw [trimNotes]
  rfl

theorem makeMidi_single [FloorRing α] (n : Note α) (time : List α) (t0 t1 : α)
    (hne : ¬ n.end_ ≤ n.start + 1) (h0 : time[n.start]? = some t0)
    (h1 : time[n.end_ - 1]? = some t1) :
    makeMidi [n] time = some [⟨rhe n.pitch, rhe n.velocity, t0, t1⟩] := by
  rw [makeMidi, if_neg hne, h0, h1]
  show (makeMidi ([] : List (Note α)) time).map
      (fun evs => ⟨rhe n.pitch, rhe n.velocity, t0, t1⟩ :: evs) = _
  rw [makeMidi, Option.map_some']

theorem rhe129 : rhe (129 : ℝ) = 129 := by
  rw [show (129 : ℝ) = ((129 : ℤ) : ℝ) by push_cast; ring, rhe_intCast]

theorem rhe127 : rhe (127 : ℝ) = 127 := by
  rw [show (127 : ℝ) = ((127 : ℤ) : ℝ) by push_cast; ring, rhe_intCast]

theorem midiEval10 :
    makeMidi [(⟨129, 0, 6, 127⟩ : Note ℝ)] time10 = some [⟨129, 127, 0, 5 / 100⟩] := by
  have h := makeMidi_single (⟨129, 0, 6, 127⟩ : Note ℝ) time10 0 (5 / 100)
    (by norm_num) rfl rfl
  rw [h]
  show some [(⟨rhe (129 : ℝ), rhe (127 : ℝ), 0, 5 / 100⟩ : NoteEvent ℝ)] = _
  rw [rhe129, rhe127]

theorem midiEval11 :
    makeMidi [(⟨129, 0, 6, 127⟩ : Note ℝ)] time11 = some [⟨129, 127, 0, 5 / 100⟩] := by
  have h := makeMidi_single (⟨129, 0, 6, 127⟩ : Note ℝ) time11 0 (5 / 100)
    (by norm_num) rfl rfl
  rw [h]
  show some [(⟨rhe (129 : ℝ), rhe (127 : ℝ), 0, 5 / 100⟩ : NoteEvent ℝ)] = _
  rw [rhe129, rhe127]

theorem scenario129_eval :
    featuresToMidi (List.replicate 10 0) time10 (List.replicate 10 14080) confDip10
      (List.replicate 10 1) 0.001 0.03 6 0.8 0.03 1 = some [⟨129, 127, 0, 5 / 100⟩] := by
  rw [featuresToMidi]
  rw [rmsToVelocity_replicate 10 1 (by omega) (by norm_num), Option.some_bind]
  rw [computeMidiPitchAndGradient_replicate 10 (by omega) 14080, Option.some_bind]
  simp only [hz129]
  rw [segEval10 0.001 (by norm_num), Option.some_bind]
  rw [createEval, Option.some_bind]
  rw [mergeEval, rsqEval, thresholdOnsetActivations_zero, splitEval, trimEval,
    Option.some_bind, midiEval10]

theorem scenario129_eval11 :
    featuresToMidi (List.replicate 10 0) time11 (List.replicate 10 14080) confDip10
      (List.replicate 10 1) 0.001 0.03 6 0.8 0.03 1 = some [⟨129, 127, 0, 5 / 100⟩] := by
  rw [featuresToMidi]
  rw [rmsToVelocity_replicate 10 1 (by omega) (by norm_num), Option.some_bind]
  rw [computeMidiPitchAndGradient_replicate 10 (by omega) 14080, Option.some_bind]
  simp only [hz129]
  rw [segEval10 0.001 (by norm_num), Option.some_bind]
  rw [createEval, Option.some_bind]
  rw [mergeEval, rsqEval, thresholdOnsetActivations_zero, splitEval, trimEval,
    Option.some_bind, midiEval11]

/-- Claim C4, counterexample: with strictly increasing time and positive
frequency (constant 14080 Hz = MIDI 129), the pipeline emits an event whose
pitch 129 exceeds 127 — the code never clamps pitch to the MIDI range. -/
theorem C4_cex :
    time10.Chain' (· < ·) ∧ (∀ f ∈ List.replicate 10 (14080 : ℝ), 0 < f) ∧
    featuresToMidi (List.replicate 10 0) time10 (List.replicate 10 14080) confDip10
      (List.replicate 10 1) 0.001 0.03 6 0.8 0.03 1 = some [⟨129, 127, 0, 5 / 100⟩] ∧
    ¬ ((129 : ℤ) ≤ 127) := by
  refine ⟨?_, ?_, scenario129_eval, by norm_num⟩
  · norm_num [time10, List.chain'_cons, List.chain'_singleton]
  · intro f hf
    rw [List.eq_of_mem_replicate hf]
    norm_num

/-- Claim C5, counterexample: a `time` array one frame longer than the
other four signals is malformed input, yet the pipeline silently produces a
note-event output instead of failing fast. -/
theorem C5_cex :
    (List.replicate 10 (0 : ℝ)).length ≠ time11.length ∧
    featuresToMidi (List.replicate 10 0) time11 (List.replicate 10 14080) confDip10
      (List.replicate 10 1) 0.001 0.03 6 0.8 0.03 1 = some [⟨129, 127, 0, 5 / 100⟩] := by
  refine ⟨?_, scenario129_eval11⟩
  norm_num [time11]

/-- Claim C5, amended: the pipeline does fail fast on `T = 0` (the empty
`rms` makes the velocity mapper's `.max()` raise before anything else
runs), but mismatched lengths are not validated and can silently produce
output. -/
theorem C5_thm (onset time frequency confidence : List ℝ)
    (p1 p2 p3 p4 p5 p6 : ℝ) :
    featuresToMidi onset time frequency confidence [] p1 p2 p3 p4 p5 p6 = none := rfl


/-! ### Rounding bounds and monotonicity -/

/-- Round-half-to-even returns the floor or its successor, the successor
only when the fractional part is positive. -/
theorem rhe_shape [FloorRing α] (x : α) :
    rhe x = ⌊x⌋ ∨ (rhe x = ⌊x⌋ + 1 ∧ 0 < Int.fract x) := by
  unfold rhe
  split_ifs with h1 h2 h3
  · exact Or.inl rfl
  · exact Or.inr ⟨rfl, lt_trans (by norm_num) h2⟩
  · exact Or.inl rfl
  · push_neg at h1
    exact Or.inr ⟨rfl, lt_of_lt_of_le (by norm_num) h1⟩

/-- Integer bounds survive round-half-to-even. -/
theorem rhe_bounds [FloorRing α] (x : α) (a b : ℤ)
    (ha : (a : α) ≤ x) (hb : x ≤ (b : α)) : a ≤ rhe x ∧ rhe x ≤ b := by
  have hfa : a ≤ ⌊x⌋ := Int.le_floor.mpr ha
  have hfb : ⌊x⌋ ≤ b := by
    have h := Int.floor_mono hb
    rwa [Int.floor_intCast] at h
  rcases rhe_shape x with h | ⟨h, hf⟩
  · rw [h]; exact ⟨hfa, hfb⟩
  · rw [h]
    refine ⟨by omega, ?_⟩
    have hx : (⌊x⌋ : α) < x := by
      rw [← Int.self_sub_floor] at hf
      linarith
    have hxb : ⌊x⌋ < b := by exact_mod_cast lt_of_lt_of_le hx hb
    omega

/-- Round-half-to-even is monotone. -/
theorem rhe_mono [FloorRing α] {x y : α} (h : x ≤ y) : rhe x ≤ rhe y := by
  have hf : ⌊x⌋ ≤ ⌊y⌋ := Int.floor_mono h
  rcases eq_or_lt_of_le hf with heq | hlt
  · have hfr : Int.fract x ≤ Int.fract y := by
      rw [← Int.self_sub_floor, ← Int.self_sub_floor, heq]
      linarith
    unfold rhe
    rw [heq]
    split_ifs <;> first
      | omega
      | (exfalso; linarith)
  · have h1 : rhe x ≤ ⌊x⌋ + 1 := by unfold rhe; split_ifs <;> omega
    have h2 : ⌊y⌋ ≤ rhe y := by unfold rhe; split_ifs <;> omega
    omega

/-- Rounding a natural-number cast is the identity. -/
theorem rhe_natCast [FloorRing α] (n : ℕ) : rhe ((n : α)) = (n : ℤ) := by
  rw [show ((n : α)) = (((n : ℤ) : ℤ) : α) by push_cast; ring]
  exact rhe_intCast (n : ℤ)

/-! ### Velocity bounds through the pipeline -/

/-- The velocity rescaling `np.interp(c, (0, m), (0, 127))` lands in
`[0, 127]` whatever `c` and `m` are (including the degenerate `m = 0`). -/
theorem npInterp2_unit_bounds (c m : α) :
    0 ≤ npInterp2 c 0 m 0 127 ∧ npInterp2 c 0 m 0 127 ≤ 127 := by
  unfold npInterp2
  split_ifs with h1 h2 h3
  · norm_num
  · norm_num
  · norm_num
  · push_neg at h1 h2 h3
    have hm : 0 < m := lt_of_le_of_lt h2 h3
    simp only [sub_zero, zero_add]
    constructor
    · exact div_nonneg (by nlinarith) (le_of_lt hm)
    · rw [div_le_iff₀ hm]
      nlinarith

/-- Every velocity produced by `rms_to_velocity` lies in `[0, 127]`. -/
theorem rmsToVelocity_bounds (rms vel : List ℝ)
    (h : rmsToVelocity rms = some vel) : ∀ v ∈ vel, 0 ≤ v ∧ v ≤ 127 := by
  simp only [rmsToVelocity] at h
  cases hm : npMax (rms.map fun r => npClip r 0 (npMean rms + 6 * npStd rms)) with
  | none => rw [hm] at h; exact absurd h (by simp)
  | some m =>
    rw [hm] at h
    simp only [Option.map_some, Option.map_some', Option.some.injEq] at h
    subst h
    intro v hv
    obtain ⟨c, _, rfl⟩ := List.mem_map.mp hv
    exact npInterp2_unit_bounds c m

/-- Elements of a Python slice are elements of the sliced list. -/
theorem pySlice_subset (l : List α) (s e : ℕ) : ∀ x ∈ pySlice l s e, x ∈ l := by
  intro x hx
  rw [pySlice] at hx
  exact List.mem_of_mem_drop (List.mem_of_mem_take hx)

/-- `create_notes` produces one note per segment, in order: each note takes
its segment's boundaries and a velocity drawn from the velocity array. -/
theorem createNotes_spec :
    ∀ (segs : List (ℕ × ℕ)) (mp vel : List α) notes,
      createNotes segs mp vel = some notes →
      List.Forall₂ (fun (se : ℕ × ℕ) (n : Note α) =>
        n.start = se.1 ∧ n.end_ = se.2 ∧ n.velocity ∈ vel) segs notes := by
  intro segs
  induction segs with
  | nil =>
    intro mp vel notes h
    simp only [createNotes, Option.some.injEq] at h
    subst h
    exact List.Forall₂.nil
  | cons se rest ih =>
    intro mp vel notes h
    obtain ⟨s, e⟩ := se
    rw [createNotes] at h
    cases hp : pySlice mp s e with
    | nil =>
      rw [hp] at h
      exact absurd h (by simp)
    | cons p0 ps =>
      cases hv : pySlice vel s e with
      | nil =>
        rw [hp, hv] at h
        exact absurd h (by simp)
      | cons v0 vs =>
        rw [hp, hv] at h
        replace h : (createNotes rest mp vel).map
            (fun notes => (⟨npMedianT (p0 :: ps), s, e, listMax (v0 :: vs)⟩ : Note α)
              :: notes) = some notes := h
        cases hr : createNotes rest mp vel with
        | none => rw [hr] at h; exact absurd h (by simp)
        | some ns =>
          rw [hr] at h
          simp only [Option.map_some, Option.map_some', Option.some.injEq] at h
          subst h
          refine List.Forall₂.cons ⟨rfl, rfl, ?_⟩ (ih mp vel ns hr)
          have hmem : listMax (v0 :: vs) ∈ pySlice vel s e := by
            rw [hv]
            exact listMax_mem (v0 :: vs) (by simp)
          exact pySlice_subset vel s e _ hmem



/-! ### Merge-loop invariants -/

/-- `combine_notes` emits at most one note, so its output is vacuously
pairwise-ordered. -/
theorem combineNotes_pairwise {R : Note α → Note α → Prop} :
    ∀ l : List (Note α), (combineNotes l).Pairwise R := by
  intro l
  cases l with
  | nil => simp [combineNotes]
  | cons n1 tl =>
    cases tl with
    | nil => simp [combineNotes]
    | cons n2 rest => simp [combineNotes]

/-- Each field of a note flushed by `combine_notes` comes from the run:
the start from some run note's start, the end from some run note's end, the
velocity from some run note's velocity. -/
theorem combineNotes_mem :
    ∀ (l : List (Note α)) m, m ∈ combineNotes l →
      (∃ a ∈ l, m.start = a.start) ∧ (∃ b ∈ l, m.end_ = b.end_) ∧
        ∃ c ∈ l, m.velocity = c.velocity := by
  intro l
  cases l with
  | nil => intro m hm; exact absurd hm (by simp [combineNotes])
  | cons n1 tl =>
    cases tl with
    | nil =>
      intro m hm
      simp only [combineNotes, List.mem_singleton] at hm
      subst hm
      exact ⟨⟨m, by simp, rfl⟩, ⟨m, by simp, rfl⟩, ⟨m, by simp, rfl⟩⟩
    | cons n2 rest =>
      intro m hm
      simp only [combineNotes, List.mem_singleton] at hm
      subst hm
      refine ⟨⟨n1, by simp, rfl⟩, ?_, ?_⟩
      · exact ⟨(n2 :: rest).getLast (List.cons_ne_nil n2 rest),
          List.mem_cons_of_mem _ (List.getLast_mem _), rfl⟩
      · have hmx := listMax_mem ((n1 :: n2 :: rest).map (·.velocity)) (by simp)
        obtain ⟨c, hc, he⟩ := List.mem_map.mp hmx
        exact ⟨c, hc, he.symm⟩

/-- A run whose notes are ordered and individually well-formed flushes to a
well-formed note. -/
theorem combineNotes_wf :
    ∀ l : List (Note α), (l.Pairwise fun a b => a.end_ ≤ b.start) →
      (∀ n ∈ l, n.start ≤ n.end_) → ∀ m ∈ combineNotes l, m.start ≤ m.end_ := by
  intro l
  cases l with
  | nil => intro _ _ m hm; exact absurd hm (by simp [combineNotes])
  | cons n1 tl =>
    cases tl with
    | nil =>
      intro _ hq m hm
      simp only [combineNotes, List.mem_singleton] at hm
      subst hm
      exact hq m (by simp)
    | cons n2 rest =>
      intro hpw hq m hm
      simp only [combineNotes, List.mem_singleton] at hm
      subst hm
      show n1.start ≤ ((n2 :: rest).getLast (List.cons_ne_nil n2 rest)).end_
      have hlast := List.getLast_mem (List.cons_ne_nil n2 rest)
      have h1 : n1.end_ ≤ ((n2 :: rest).getLast (List.cons_ne_nil n2 rest)).start :=
        (List.pairwise_cons.mp hpw).1 _ hlast
      have h2 := hq _ (List.mem_cons_of_mem _ hlast)
      have h0 := hq n1 (by simp)
      omega

/-- Every note returned by the merge loop draws each of its fields from the
accumulated run or the remaining input. -/
theorem mergeAux_mem :
    ∀ (notes comb : List (Note α)) m, m ∈ mergeAux notes comb →
      (∃ a ∈ comb ++ notes, m.start = a.start) ∧
      (∃ b ∈ comb ++ notes, m.end_ = b.end_) ∧
      ∃ c ∈ comb ++ notes, m.velocity = c.velocity := by
  intro notes
  induction notes with
  | nil =>
    intro comb m hm
    replace hm : m ∈ combineNotes comb := hm
    obtain ⟨⟨a, ha, hea⟩, ⟨b, hb, heb⟩, ⟨c, hc, hec⟩⟩ := combineNotes_mem comb m hm
    exact ⟨⟨a, by simp [ha], hea⟩, ⟨b, by simp [hb], heb⟩, ⟨c, by simp [hc], hec⟩⟩
  | cons n1 rest ih =>
    intro comb m hm
    cases rest with
    | nil =>
      replace hm : m ∈ combineNotes comb := hm
      obtain ⟨⟨a, ha, hea⟩, ⟨b, hb, heb⟩, ⟨c, hc, hec⟩⟩ := combineNotes_mem comb m hm
      exact ⟨⟨a, by simp [ha], hea⟩, ⟨b, by simp [hb], heb⟩, ⟨c, by simp [hc], hec⟩⟩
    | cons n2 rest2 =>
      rw [mergeAux] at hm
      split at hm
      · obtain ⟨⟨a, ha, hea⟩, ⟨b, hb, heb⟩, ⟨c, hc, hec⟩⟩ := ih (comb ++ [n1]) m hm
        rw [List.append_assoc, List.singleton_append] at ha hb hc
        exact ⟨⟨a, ha, hea⟩, ⟨b, hb, heb⟩, ⟨c, hc, hec⟩⟩
      · rcases List.mem_append.mp hm with hm | hm
        · obtain ⟨⟨a, ha, hea⟩, ⟨b, hb, heb⟩, ⟨c, hc, hec⟩⟩ := combineNotes_mem _ m hm
          refine ⟨⟨a, ?_, hea⟩, ⟨b, ?_, heb⟩, ⟨c, ?_, hec⟩⟩ <;>
            · simp only [List.mem_append, List.mem_cons, List.mem_singleton,
                List.not_mem_nil, or_false] at *
              tauto
        · obtain ⟨⟨a, ha, hea⟩, ⟨b, hb, heb⟩, ⟨c, hc, hec⟩⟩ := ih [] m hm
          rw [List.nil_append] at ha hb hc
          refine ⟨⟨a, ?_, hea⟩, ⟨b, ?_, heb⟩, ⟨c, ?_, hec⟩⟩ <;>
            · simp only [List.mem_append, List.mem_cons] at *
              tauto

/-- The merge loop turns an ordered, well-formed working list into an
ordered, well-formed output. -/
theorem mergeAux_sound :
    ∀ (notes comb : List (Note α)),
      ((comb ++ notes).Pairwise fun a b => a.end_ ≤ b.start) →
      (∀ n ∈ comb ++ notes, n.start ≤ n.end_) →
      ((mergeAux notes comb).Pairwise fun a b => a.end_ ≤ b.start) ∧
      ∀ m ∈ mergeAux notes comb, m.start ≤ m.end_ := by
  intro notes
  induction notes with
  | nil =>
    intro comb hpw hwf
    rw [List.append_nil] at hpw hwf
    exact ⟨combineNotes_pairwise comb, combineNotes_wf comb hpw hwf⟩
  | cons n1 rest ih =>
    intro comb hpw hwf
    cases rest with
    | nil =>
      have hsub : List.Sublist comb (comb ++ [n1]) := List.sublist_append_left comb [n1]
      refine ⟨combineNotes_pairwise comb, combineNotes_wf comb (hpw.sublist hsub) ?_⟩
      intro n hn
      exact hwf n (List.mem_append_left _ hn)
    | cons n2 rest2 =>
      rw [mergeAux]
      have hshuffle : comb ++ n1 :: n2 :: rest2 = (comb ++ [n1]) ++ n2 :: rest2 := by
        rw [List.append_assoc, List.singleton_append]
      rw [hshuffle] at hpw hwf
      split
      · exact ih (comb ++ [n1]) hpw hwf
      · obtain ⟨hcross1, hrest, hcross⟩ := List.pairwise_append.mp hpw
        have hwf1 : ∀ n ∈ comb ++ [n1], n.start ≤ n.end_ := fun n hn =>
          hwf n (List.mem_append_left _ hn)
        have hwf2 : ∀ n ∈ ([] : List (Note α)) ++ n2 :: rest2, n.start ≤ n.end_ := by
          intro n hn
          rw [List.nil_append] at hn
          exact hwf n (List.mem_append_right _ hn)
        have hrest' : (([] : List (Note α)) ++ n2 :: rest2).Pairwise
            fun a b => a.end_ ≤ b.start := by rwa [List.nil_append]
        obtain ⟨ihp, ihw⟩ := ih [] hrest' hwf2
        constructor
        · rw [List.pairwise_append]
          refine ⟨combineNotes_pairwise _, ihp, ?_⟩
          intro m hm m' hm'
          obtain ⟨_, ⟨b, hb, heb⟩, _⟩ := combineNotes_mem _ m hm
          obtain ⟨⟨a, ha, hea⟩, _, _⟩ := mergeAux_mem _ _ m' hm'
          rw [List.nil_append] at ha
          rw [heb, hea]
          exact hcross b hb a ha
        · intro m hm
          rcases List.mem_append.mp hm with hm | hm
          · exact combineNotes_wf _ hcross1 hwf1 m hm
          · exact ihw m hm


/-! ### Split and trim stage invariants -/

/-- Every note emitted by `split_notes` inherits its parent's pitch and
velocity and stays within the parent's span. -/
theorem splitNotes_mem :
    ∀ (notes : List (Note α)) (oa : List α) (msd : α) m, m ∈ splitNotes notes oa msd →
      ∃ n ∈ notes, m.pitch = n.pitch ∧ m.velocity = n.velocity ∧
        n.start ≤ m.start ∧ m.end_ ≤ n.end_ := by
  intro notes
  induction notes with
  | nil => intro oa msd m hm; exact absurd hm (by simp [splitNotes])
  | cons n rest ih =>
    intro oa msd m hm
    rw [splitNotes] at hm
    rcases List.mem_append.mp hm with hm | hm
    · split at hm
      · rename_i hany
        obtain ⟨hp, hv, hs, he, _⟩ := splitLoop_mem n.pitch n.velocity msd _ n.start m hm
        have hse : n.start ≤ n.end_ := by
          by_contra hlt
          push_neg at hlt
          have hnil : pySlice oa n.start n.end_ = [] := by
            rw [pySlice, show n.end_ - n.start = 0 by omega, List.take_zero]
          rw [hnil] at hany
          simp at hany
        refine ⟨n, List.mem_cons_self _ _, hp, hv, ?_, ?_⟩
        · rcases List.mem_cons.mp hs with hs | hs
          · omega
          · exact splitIdx_ge oa n.start n.end_ hse _ hs
        · exact splitIdx_le oa n.start n.end_ _ he
      · simp only [List.mem_singleton] at hm
        subst hm
        exact ⟨m, List.mem_cons_self _ _, rfl, rfl, le_rfl, le_rfl⟩
    · obtain ⟨r, hr, hfacts⟩ := ih oa msd m hm
      exact ⟨r, List.mem_cons_of_mem _ hr, hfacts⟩

/-- When the split indices are sorted and dominate the running start, every
emitted sub-note is well-formed. -/
theorem splitLoop_wf (p v msd : α) :
    ∀ (idxs : List ℕ) prev, idxs.Pairwise (· ≤ ·) → (∀ i ∈ idxs, prev ≤ i) →
      ∀ m ∈ splitLoop p v msd idxs prev, m.start ≤ m.end_ := by
  intro idxs
  induction idxs with
  | nil => intro prev _ _ m hm; exact absurd hm (by simp [splitLoop])
  | cons s rest ih =>
    intro prev hpw hge m hm
    rw [List.pairwise_cons] at hpw
    rw [splitLoop] at hm
    split at hm
    · rcases List.mem_cons.mp hm with hm | hm
      · subst hm
        exact hge s (List.mem_cons_self _ _)
      · exact ih s hpw.2 hpw.1 m hm
    · refine ih prev hpw.2 ?_ m hm
      intro i hi
      exact hge i (List.mem_cons_of_mem _ hi)

/-- `split_notes` turns an ordered, well-formed note list into an ordered,
well-formed note list. -/
theorem splitNotes_sound :
    ∀ (notes : List (Note α)) (oa : List α) (msd : α),
      (notes.Pairwise fun a b => a.end_ ≤ b.start) →
      (∀ n ∈ notes, n.start ≤ n.end_) →
      ((splitNotes notes oa msd).Pairwise fun a b => a.end_ ≤ b.start) ∧
      ∀ m ∈ splitNotes notes oa msd, m.start ≤ m.end_ := by
  intro notes
  induction notes with
  | nil => intro oa msd _ _; exact ⟨by simp [splitNotes], by simp [splitNotes]⟩
  | cons n rest ih =>
    intro oa msd hpw hwf
    rw [List.pairwise_cons] at hpw
    obtain ⟨ihp, ihw⟩ := ih oa msd hpw.2 fun r hr => hwf r (List.mem_cons_of_mem _ hr)
    have hn : n.start ≤ n.end_ := hwf n (List.mem_cons_self _ _)
    have hbranch_wf : ∀ m ∈ (if (pySlice oa n.start n.end_).any (fun v => decide (v ≠ 0))
        then splitLoop n.pitch n.velocity msd
          ((whereNZ (pySlice oa n.start n.end_)).map (· + n.start) ++ [n.end_]) n.start
        else [n]), m.start ≤ m.end_ := by
      intro m hm
      split at hm
      · exact splitLoop_wf n.pitch n.velocity msd _ n.start
          (splitIdxs_sorted oa n.start n.end_) (splitIdx_ge oa n.start n.end_ hn) m hm
      · simp only [List.mem_singleton] at hm
        subst hm
        exact hn
    have hbranch_le : ∀ m ∈ (if (pySlice oa n.start n.end_).any (fun v => decide (v ≠ 0))
        then splitLoop n.pitch n.velocity msd
          ((whereNZ (pySlice oa n.start n.end_)).map (· + n.start) ++ [n.end_]) n.start
        else [n]), m.end_ ≤ n.end_ := by
      intro m hm
      split at hm
      · exact splitIdx_le oa n.start n.end_ _
          (splitLoop_mem n.pitch n.velocity msd _ n.start m hm).2.2.2.1
      · simp only [List.mem_singleton] at hm
        subst hm
        exact le_rfl
    rw [splitNotes]
    constructor
    · rw [List.pairwise_append]
      refine ⟨?_, ihp, ?_⟩
      · split
        · exact splitLoop_pairwise n.pitch n.velocity msd _ n.start
            (splitIdxs_sorted oa n.start n.end_)
        · simp
      · intro m hm m' hm'
        obtain ⟨r, hr, _, _, hrs, _⟩ := splitNotes_mem rest oa msd m' hm'
        exact le_trans (hbranch_le m hm) (le_trans (hpw.1 r hr) hrs)
    · intro m hm
      rcases List.mem_append.mp hm with hm | hm
      · exact hbranch_wf m hm
      · exact ihw m hm

/-- A successful trim keeps pitch and velocity. -/
theorem trimNote_fields (vel : List α) (thr : α) (n n' : Note α)
    (h : trimNote vel thr n = some n') : n'.pitch = n.pitch ∧ n'.velocity = n.velocity := by
  unfold trimNote at h
  cases hs : trimStart vel thr n.start n.end_ with
  | none => rw [hs] at h; exact absurd h (by simp)
  | some s' =>
    rw [hs, Option.some_bind] at h
    cases he : trimEnd vel thr s' n.end_ with
    | none => rw [he] at h; exact absurd h (by simp)
    | some e' =>
      rw [he] at h
      simp only [Option.map_some, Option.map_some', Option.some.injEq] at h
      subst h
      exact ⟨rfl, rfl⟩

/-- Transfer a pairwise relation across a pointwise relation between two
lists. -/
theorem forall2_pairwise {β γ : Type} {S : β → γ → Prop} {R : β → β → Prop}
    {R' : γ → γ → Prop} :
    ∀ {l : List β} {l' : List γ}, List.Forall₂ S l l' → l.Pairwise R →
      (∀ a ∈ l, ∀ b ∈ l, ∀ a' b', S a a' → S b b' → R a b → R' a' b') →
      l'.Pairwise R' := by
  intro l l' hf
  induction hf with
  | nil => intro _ _; exact List.Pairwise.nil
  | @cons a a' bs bs' hS htail ih =>
    intro hpw himp
    rw [List.pairwise_cons] at hpw ⊢
    refine ⟨?_, ih hpw.2 fun x hx y hy => himp x (List.mem_cons_of_mem _ hx)
      y (List.mem_cons_of_mem _ hy)⟩
    intro b' hb'
    obtain ⟨b, hb, hSb⟩ := forall2_mem_right htail b' hb'
    exact himp a (List.mem_cons_self _ _) b (List.mem_cons_of_mem _ hb) a' b' hS hSb
      (hpw.1 b hb)

/-- `trim_notes` turns an ordered, well-formed note list into an ordered,
well-formed note list. -/
theorem trimNotes_sound (vel : List α) (thr : α) (notes out : List (Note α))
    (h : trimNotes notes vel thr = some out)
    (hpw : notes.Pairwise fun a b => a.end_ ≤ b.start)
    (hwf : ∀ n ∈ notes, n.start ≤ n.end_) :
    (out.Pairwise fun a b => a.end_ ≤ b.start) ∧ ∀ m ∈ out, m.start ≤ m.end_ := by
  have hf := trimNotes_forall2 vel thr notes out h
  constructor
  · refine forall2_pairwise hf hpw ?_
    intro a ha b hb a' b' hSa hSb hab
    obtain ⟨_, _, ha3, _, _⟩ := trimNote_le vel thr a a' (hwf a ha) hSa
    obtain ⟨hb1, _, _, _, _⟩ := trimNote_le vel thr b b' (hwf b hb) hSb
    omega
  · intro m hm
    obtain ⟨n, hn, hS⟩ := forall2_mem_right hf m hm
    exact (trimNote_le vel thr n m (hwf n hn) hS).2.1


/-! ### Emission invariants and the amended output-range claim -/

/-- Every event built by `make_midi` comes from a strictly-longer-than-one
note whose two timestamps are in-range reads of the `time` array, with the
rounded pitch and velocity of that note. -/
theorem makeMidi_mem [FloorRing α] :
    ∀ (notes : List (Note α)) (time : List α) evs, makeMidi notes time = some evs →
      ∀ ev ∈ evs, ∃ n ∈ notes, n.start + 1 < n.end_ ∧
        time[n.start]? = some ev.start_time ∧ time[n.end_ - 1]? = some ev.end_time ∧
        ev.pitch = rhe n.pitch ∧ ev.velocity = rhe n.velocity := by
  intro notes
  induction notes with
  | nil =>
    intro time evs h ev hev
    simp only [makeMidi, Option.some.injEq] at h
    subst h
    exact absurd hev (by simp)
  | cons n rest ih =>
    intro time evs h ev hev
    rw [makeMidi] at h
    split at h
    · obtain ⟨r, hr, hfacts⟩ := ih time evs h ev hev
      exact ⟨r, List.mem_cons_of_mem _ hr, hfacts⟩
    · rename_i hgt
      split at h
      · rename_i t0 t1 h0 h1
        cases hr : makeMidi rest time with
        | none => rw [hr] at h; exact absurd h (by simp)
        | some evs' =>
          rw [hr] at h
          simp only [Option.map_some, Option.map_some', Option.some.injEq] at h
          subst h
          rcases List.mem_cons.mp hev with hev | hev
          · subst hev
            exact ⟨n, List.mem_cons_self _ _, by omega, h0, h1, rfl, rfl⟩
          · obtain ⟨r, hrm, hfacts⟩ := ih time evs' hr ev hev
            exact ⟨r, List.mem_cons_of_mem _ hrm, hfacts⟩
      · exact absurd h (by simp)

/-- In a strictly increasing time array, an earlier in-range read is
smaller than a later one. -/
theorem pairwise_get_lt (time : List α) (hp : time.Pairwise (· < ·))
    (i j : ℕ) (hij : i < j) (ti tj : α)
    (hti : time[i]? = some ti) (htj : time[j]? = some tj) : ti < tj := by
  obtain ⟨hi', hti⟩ := List.getElem?_eq_some.mp hti
  obtain ⟨hj', htj⟩ := List.getElem?_eq_some.mp htj
  subst hti htj
  exact List.pairwise_iff_getElem.mp hp i j hi' hj' hij

/-- `make_midi` of an ordered note list under a strictly increasing time
array yields non-overlapping events. -/
theorem makeMidi_pairwise [FloorRing α] :
    ∀ (notes : List (Note α)) (time : List α) evs,
      makeMidi notes time = some evs →
      (notes.Pairwise fun a b => a.end_ ≤ b.start) →
      time.Pairwise (· < ·) →
      evs.Pairwise fun a b => a.end_time ≤ b.start_time := by
  intro notes
  induction notes with
  | nil =>
    intro time evs h _ _
    simp only [makeMidi, Option.some.injEq] at h
    subst h
    exact List.Pairwise.nil
  | cons n rest ih =>
    intro time evs h hpw ht
    rw [List.pairwise_cons] at hpw
    rw [makeMidi] at h
    split at h
    · exact ih time evs h hpw.2 ht
    · rename_i hgt
      split at h
      · rename_i t0 t1 h0 h1
        cases hr : makeMidi rest time with
        | none => rw [hr] at h; exact absurd h (by simp)
        | some evs' =>
          rw [hr] at h
          simp only [Option.map_some, Option.map_some', Option.some.injEq] at h
          subst h
          refine List.Pairwise.cons ?_ (ih time evs' hr hpw.2 ht)
          intro ev' hev'
          obtain ⟨r, hrm, hlong, hs', _, _, _⟩ := makeMidi_mem rest time evs' hr ev' hev'
          have hle : n.end_ ≤ r.start := hpw.1 r hrm
          exact le_of_lt (pairwise_get_lt time ht (n.end_ - 1) r.start (by omega)
            t1 ev'.start_time h1 hs')
      · exact absurd h (by simp)

/-- A successful pipeline run reaches emission with velocities drawn from
`rms_to_velocity`, hence inside `[0, 127]`. -/
theorem pipeline_velocity (onsetActivations time frequency confidence rms : List ℝ)
    (p1 p2 p3 p4 p5 p6 : ℝ) (evs : List (NoteEvent ℝ))
    (h : featuresToMidi onsetActivations time frequency confidence rms p1 p2 p3 p4 p5 p6 =
      some evs) :
    ∃ notes4 : List (Note ℝ), makeMidi notes4 time = some evs ∧
      ∀ n ∈ notes4, 0 ≤ n.velocity ∧ n.velocity ≤ 127 := by
  simp only [featuresToMidi] at h
  cases hv : rmsToVelocity rms with
  | none => rw [hv] at h; exact absurd h (by simp)
  | some midiVelocity =>
  rw [hv, Option.some_bind] at h
  cases hmg : computeMidiPitchAndGradient frequency with
  | none => rw [hmg] at h; exact absurd h (by simp)
  | some mg =>
  rw [hmg, Option.some_bind] at h
  cases hsg : computeNoteSegments confidence mg.2 p1 with
  | none => rw [hsg] at h; exact absurd h (by simp)
  | some noteSegments =>
  rw [hsg, Option.some_bind] at h
  cases hcn : createNotes noteSegments mg.1 midiVelocity with
  | none => rw [hcn] at h; exact absurd h (by simp)
  | some notes0 =>
  rw [hcn, Option.some_bind] at h
  cases htr : trimNotes (splitNotes (removeShortQuietNotes (mergeNotes notes0) p2 p3)
      (thresholdOnsetActivations onsetActivations p4) p5) midiVelocity p6 with
  | none => rw [htr] at h; exact absurd h (by simp)
  | some notes4 =>
  rw [htr, Option.some_bind] at h
  refine ⟨notes4, h, ?_⟩
  have hv0 : ∀ v ∈ midiVelocity, 0 ≤ v ∧ v ≤ 127 := rmsToVelocity_bounds rms _ hv
  have h0 : ∀ n ∈ notes0, 0 ≤ n.velocity ∧ n.velocity ≤ 127 := by
    intro n hn
    obtain ⟨se, _, _, _, hvm⟩ := forall2_mem_right (createNotes_spec _ _ _ _ hcn) n hn
    exact hv0 _ hvm
  have h1 : ∀ n ∈ mergeNotes notes0, 0 ≤ n.velocity ∧ n.velocity ≤ 127 := by
    intro n hn
    obtain ⟨_, _, c, hc, hec⟩ := mergeAux_mem notes0 [] n hn
    rw [List.nil_append] at hc
    rw [hec]
    exact h0 c hc
  have h2 : ∀ n ∈ removeShortQuietNotes (mergeNotes notes0) p2 p3,
      0 ≤ n.velocity ∧ n.velocity ≤ 127 := fun n hn => h1 n (List.mem_of_mem_filter hn)
  have h3 : ∀ n ∈ splitNotes (removeShortQuietNotes (mergeNotes notes0) p2 p3)
      (thresholdOnsetActivations onsetActivations p4) p5,
      0 ≤ n.velocity ∧ n.velocity ≤ 127 := by
    intro n hn
    obtain ⟨r, hr, _, hvel, _, _⟩ := splitNotes_mem _ _ _ n hn
    rw [hvel]
    exact h2 r hr
  intro n hn
  obtain ⟨r, hr, hS⟩ := forall2_mem_right (trimNotes_forall2 _ _ _ _ htr) n hn
  obtain ⟨_, hvel⟩ := trimNote_fields _ _ _ _ hS
  rw [hvel]
  exact h3 r hr

/-- Claim C4, amended: under a strictly increasing `time` array, every
emitted event has its velocity in `[0, 127]`, a strictly positive duration,
and both timestamps drawn from the `time` array; the pitch bound
`0 ≤ pitch ≤ 127` of the original claim is not enforced by the code
(`C4_cex` emits pitch 129). -/
theorem C4_thm (onsetActivations time frequency confidence rms : List ℝ)
    (p1 p2 p3 p4 p5 p6 : ℝ) (evs : List (NoteEvent ℝ))
    (htime : time.Chain' (· < ·))
    (h : featuresToMidi onsetActivations time frequency confidence rms p1 p2 p3 p4 p5 p6 =
      some evs) :
    ∀ ev ∈ evs, 0 ≤ ev.velocity ∧ ev.velocity ≤ 127 ∧ ev.start_time < ev.end_time ∧
      ev.start_time ∈ time ∧ ev.end_time ∈ time := by
  obtain ⟨notes4, hmk, hvel⟩ := pipeline_velocity _ _ _ _ _ _ _ _ _ _ _ _ h
  have hpt : time.Pairwise (· < ·) := List.chain'_iff_pairwise.mp htime
  intro ev hev
  obtain ⟨n, hn, hlong, h0, h1, _, hv⟩ := makeMidi_mem notes4 time evs hmk ev hev
  obtain ⟨hv0, hv1⟩ := hvel n hn
  have hb := rhe_bounds n.velocity 0 127 (by exact_mod_cast hv0) (by exact_mod_cast hv1)
  refine ⟨?_, ?_, ?_, ?_, ?_⟩
  · rw [hv]; exact hb.1
  · rw [hv]; exact hb.2
  · exact pairwise_get_lt time hpt n.start (n.end_ - 1) (by omega) _ _ h0 h1
  · obtain ⟨hi, hval⟩ := List.getElem?_eq_some.mp h0
    exact hval ▸ List.getElem_mem hi
  · obtain ⟨hi, hval⟩ := List.getElem?_eq_some.mp h1
    exact hval ▸ List.getElem_mem hi

/-- Claim C4, witness: the amended theorem applied to the concrete
pitch-129 scenario (strictly increasing 10-frame time ramp), instantiated
at its single emitted event. -/
theorem C4_wit :
    0 ≤ (⟨129, 127, 0, 5 / 100⟩ : NoteEvent ℝ).velocity ∧
    (⟨129, 127, 0, 5 / 100⟩ : NoteEvent ℝ).velocity ≤ 127 ∧
    (⟨129, 127, 0, 5 / 100⟩ : NoteEvent ℝ).start_time <
      (⟨129, 127, 0, 5 / 100⟩ : NoteEvent ℝ).end_time ∧
    (⟨129, 127, 0, 5 / 100⟩ : NoteEvent ℝ).start_time ∈ time10 ∧
    (⟨129, 127, 0, 5 / 100⟩ : NoteEvent ℝ).end_time ∈ time10 :=
  C4_thm (List.replicate 10 0) time10 (List.replicate 10 14080) confDip10
    (List.replicate 10 1) 0.001 0.03 6 0.8 0.03 1 [⟨129, 127, 0, 5 / 100⟩]
    (by norm_num [time10, List.chain'_cons, List.chain'_singleton]) scenario129_eval
    ⟨129, 127, 0, 5 / 100⟩ (List.mem_singleton_self _)


/-! ### Segment ordering: peak, prominence and width geometry -/

/-- The plateau scan never moves left. -/
theorem plateauEnd_ge (x : List α) (xi : α) :
    ∀ fuel j, j ≤ plateauEnd x xi fuel j := by
  intro fuel
  induction fuel with
  | zero => intro j; exact le_rfl
  | succ f ih =>
    intro j
    rw [plateauEnd]
    split
    · exact le_trans (by omega) (ih (j + 1))
    · exact le_rfl

/-- The local-maxima loop returns strictly increasing positions at or after
its cursor. -/
theorem lmAux_facts (x : List α) :
    ∀ fuel i, ((lmAux x fuel i).Pairwise (· < ·)) ∧ ∀ m ∈ lmAux x fuel i, i ≤ m := by
  intro fuel
  induction fuel with
  | zero => intro i; exact ⟨List.Pairwise.nil, by simp [lmAux]⟩
  | succ f ih =>
    intro i
    rw [lmAux]
    split
    · split
      · simp only []
        split
        · have hj : i + 1 ≤ plateauEnd x (get0 x i) x.length (i + 1) :=
            plateauEnd_ge x (get0 x i) x.length (i + 1)
          constructor
          · refine List.Pairwise.cons ?_ (ih _).1
            intro m hm
            have := (ih _).2 m hm
            omega
          · intro m hm
            rcases List.mem_cons.mp hm with hm | hm
            · subst hm; omega
            · have := (ih _).2 m hm
              omega
        · refine ⟨(ih _).1, ?_⟩
          intro m hm
          have := (ih _).2 m hm
          omega
      · refine ⟨(ih _).1, ?_⟩
        intro m hm
        have := (ih _).2 m hm
        omega
    · exact ⟨List.Pairwise.nil, by simp⟩

/-- Filtering by a keep mask yields a sublist. -/
theorem maskFilter_sublist : ∀ (l : List ℕ) (i : ℕ) (keep : List Bool),
    List.Sublist (maskFilter l i keep) l := by
  intro l
  induction l with
  | nil => intro i keep; simp [maskFilter]
  | cons p rest ih =>
    intro i keep
    rw [maskFilter]
    split
    · exact (ih (i + 1) keep).cons₂ p
    · exact (ih (i + 1) keep).cons p

/-- `find_peaks` with a distance and prominence filter returns strictly
increasing peak positions. -/
theorem findPeaksProm_sorted (x : List α) (d : ℕ) (pm : α) :
    (findPeaksProm x d pm).Pairwise (· < ·) := by
  simp only [findPeaksProm]
  have h0 : (localMaxima x).Pairwise (· < ·) := (lmAux_facts x x.length 1).1
  exact (h0.sublist (maskFilter_sublist (localMaxima x) 0 (sbpd x (localMaxima x) d))).filter _

/-- The left prominence scan only lowers its running minimum. -/
theorem promLeftAux_min_le (x : List α) (xp : α) :
    ∀ fuel m b, (promLeftAux x xp fuel m b).1 ≤ m := by
  intro fuel
  induction fuel with
  | zero => intro m b; exact le_rfl
  | succ f ih =>
    intro m b
    rw [promLeftAux]
    split
    · split
      · rename_i hlt
        exact le_trans (ih _ _) (le_of_lt hlt)
      · exact ih _ _
    · exact le_rfl

/-- The right prominence scan only lowers its running minimum. -/
theorem promRightAux_min_le (x : List α) (xp : α) :
    ∀ fuel i m b, (promRightAux x xp fuel i m b).1 ≤ m := by
  intro fuel
  induction fuel with
  | zero => intro i m b; exact le_rfl
  | succ f ih =>
    intro i m b
    rw [promRightAux]
    split
    · split
      · rename_i hlt
        exact le_trans (ih _ _ _) (le_of_lt hlt)
      · exact ih _ _ _
    · exact le_rfl

/-- Prominences are never negative. -/
theorem prominence_nonneg (x : List α) (p : ℕ) : 0 ≤ prominence x p := by
  rw [prominence, sub_nonneg]
  refine max_le ?_ ?_
  · exact promLeftAux_min_le x (get0 x p) (p + 1) (get0 x p) p
  · exact promRightAux_min_le x (get0 x p) (x.length - p) p (get0 x p) p

/-- The left width descent stops at or left of its start, and if it moved
at all the sample right of the stop is still above the height. -/
theorem wLeftAux_facts (x : List α) (h : α) (imin : ℕ) :
    ∀ fuel i, wLeftAux x h imin fuel i ≤ i ∧
      (wLeftAux x h imin fuel i = i ∨ h < get0 x (wLeftAux x h imin fuel i + 1)) := by
  intro fuel
  induction fuel with
  | zero => intro i; exact ⟨le_rfl, Or.inl rfl⟩
  | succ f ih =>
    intro i
    rw [wLeftAux]
    split
    · rename_i hc
      obtain ⟨h1, h2⟩ := ih (i - 1)
      refine ⟨by omega, ?_⟩
      rcases h2 with h2 | h2
      · rw [h2, show i - 1 + 1 = i by omega]
        exact Or.inr hc.2
      · exact Or.inr h2
    · exact ⟨le_rfl, Or.inl rfl⟩

/-- The right width descent stops at or right of its start, and if it moved
at all the sample left of the stop is still above the height. -/
theorem wRightAux_facts (x : List α) (h : α) (imax : ℕ) :
    ∀ fuel i, i ≤ wRightAux x h imax fuel i ∧
      (wRightAux x h imax fuel i = i ∨ h < get0 x (wRightAux x h imax fuel i - 1)) := by
  intro fuel
  induction fuel with
  | zero => intro i; exact ⟨le_rfl, Or.inl rfl⟩
  | succ f ih =>
    intro i
    rw [wRightAux]
    split
    · rename_i hc
      obtain ⟨h1, h2⟩ := ih (i + 1)
      refine ⟨by omega, ?_⟩
      rcases h2 with h2 | h2
      · rw [h2, show i + 1 - 1 = i from rfl]
        exact Or.inr hc.2
      · exact Or.inr h2
    · exact ⟨le_rfl, Or.inl rfl⟩

/-- The interpolated left crossing point stays at or left of the peak when
the evaluation height is below the peak sample. -/
theorem leftIP_le (x : List α) (h : α) (imin p : ℕ) (hp : h ≤ get0 x p) :
    leftIP x h imin p ≤ (p : α) := by
  obtain ⟨h1, h2⟩ := wLeftAux_facts x h imin (p - imin) p
  simp only [leftIP]
  split
  · rename_i hcross
    have hne : wLeftAux x h imin (p - imin) p ≠ p := by
      intro he
      rw [he] at hcross
      exact absurd hp (not_le.mpr hcross)
    rcases h2 with h2 | h2
    · exact absurd h2 hne
    · have hrp : wLeftAux x h imin (p - imin) p + 1 ≤ p := by omega
      have hden : 0 < get0 x (wLeftAux x h imin (p - imin) p + 1) -
          get0 x (wLeftAux x h imin (p - imin) p) := by linarith
      have hdiv : (h - get0 x (wLeftAux x h imin (p - imin) p)) /
          (get0 x (wLeftAux x h imin (p - imin) p + 1) -
            get0 x (wLeftAux x h imin (p - imin) p)) ≤ 1 :=
        (div_le_one hden).mpr (by linarith)
      have hcast : ((wLeftAux x h imin (p - imin) p + 1 : ℕ) : α) ≤ (p : α) :=
        Nat.cast_le.mpr hrp
      push_cast at hcast
      linarith
  · exact Nat.cast_le.mpr h1

/-- The interpolated right crossing point stays at or right of the peak
when the evaluation height is below the peak sample. -/
theorem rightIP_ge (x : List α) (h : α) (p imax : ℕ) (hp : h ≤ get0 x p) :
    (p : α) ≤ rightIP x h p imax := by
  obtain ⟨h1, h2⟩ := wRightAux_facts x h imax (imax - p) p
  simp only [rightIP]
  split
  · rename_i hcross
    have hne : wRightAux x h imax (imax - p) p ≠ p := by
      intro he
      rw [he] at hcross
      exact absurd hp (not_le.mpr hcross)
    rcases h2 with h2 | h2
    · exact absurd h2 hne
    · have hrp : p + 1 ≤ wRightAux x h imax (imax - p) p := by omega
      have hden : 0 < get0 x (wRightAux x h imax (imax - p) p - 1) -
          get0 x (wRightAux x h imax (imax - p) p) := by linarith
      have hdiv : (h - get0 x (wRightAux x h imax (imax - p) p)) /
          (get0 x (wRightAux x h imax (imax - p) p - 1) -
            get0 x (wRightAux x h imax (imax - p) p)) ≤ 1 :=
        (div_le_one hden).mpr (by linarith)
      have hcast : ((p + 1 : ℕ) : α) ≤ ((wRightAux x h imax (imax - p) p : ℕ) : α) :=
        Nat.cast_le.mpr hrp
      push_cast at hcast
      linarith
  · exact Nat.cast_le.mpr h1

/-- The half-prominence width interval starts at or left of its peak. -/
theorem widthPair_le (x : List α) (p : ℕ) : (widthPair x p).1 ≤ (p : α) := by
  refine leftIP_le x (get0 x p - prominence x p * (1 / 2)) (promLeft x p).2 p ?_
  have hp := prominence_nonneg x p
  nlinarith

/-- The half-prominence width interval ends at or right of its peak. -/
theorem widthPair_ge (x : List α) (p : ℕ) : (p : α) ≤ (widthPair x p).2 := by
  refine rightIP_ge x (get0 x p - prominence x p * (1 / 2)) p (promRight x p).2 ?_
  have hp := prominence_nonneg x p
  nlinarith

/-- Interleaving per-peak boundary maps around a sorted peak list yields
ordered, non-overlapping index segments. -/
theorem seg_zip_pairwise (f g : ℕ → ℕ) (hfg : ∀ p, f p ≤ g p) (hf : ∀ p, f p ≤ p)
    (hg : ∀ p, p ≤ g p) :
    ∀ (peaks : List ℕ) (L s0 : ℕ), peaks.Pairwise (· < ·) →
      (((s0 :: peaks.map g).zip (peaks.map f ++ [L])).Pairwise
        fun a b => a.2 ≤ b.1) := by
  intro peaks
  induction peaks with
  | nil => intro L s0 _; simp
  | cons p ps ih =>
    intro L s0 hpw
    rw [List.pairwise_cons] at hpw
    simp only [List.map_cons, List.cons_append, List.zip_cons_cons]
    refine List.Pairwise.cons ?_ (ih L (g p) hpw.2)
    intro b hb
    obtain ⟨b1, b2⟩ := b
    obtain ⟨hb1, _⟩ := List.of_mem_zip hb
    show f p ≤ b1
    rcases List.mem_cons.mp hb1 with h1 | h1
    · subst h1
      exact hfg p
    · obtain ⟨q, hq, rfl⟩ := List.mem_map.mp h1
      have hpq := hpw.1 q hq
      have := hf p
      have := hg q
      omega

/-- A successful `compute_note_segments` yields ordered, non-overlapping
segments, each spanning at least two frames. -/
theorem computeNoteSegments_sound [FloorRing α] (conf pg : List α) (thr : α)
    (segs : List (ℕ × ℕ)) (h : computeNoteSegments conf pg thr = some segs) :
    (segs.Pairwise fun a b => a.2 ≤ b.1) ∧ ∀ s ∈ segs, s.1 + 1 < s.2 := by
  simp only [computeNoteSegments] at h
  cases hm : npMul (conf.map fun c => 1 - c) pg with
  | none => rw [hm] at h; exact absurd h (by simp)
  | some sig =>
  rw [hm, Option.some_bind] at h
  cases hmn : npMin sig with
  | none => rw [hmn] at h; exact absurd h (by simp)
  | some mn =>
  rw [hmn, Option.some_bind] at h
  cases hmx : npMax sig with
  | none => rw [hmx] at h; exact absurd h (by simp)
  | some mx =>
  rw [hmx, Option.some_bind, Option.some.injEq] at h
  subst h
  constructor
  · refine List.Pairwise.filter _ ?_
    refine seg_zip_pairwise _ _ ?_ ?_ ?_ _ conf.length 0
      (findPeaksProm_sorted (sig.map fun v => npInterp2 v mn mx 0 1) 4 thr)
    · intro p
      exact Int.toNat_le_toNat (rhe_mono (le_trans
        (widthPair_le (sig.map fun v => npInterp2 v mn mx 0 1) p)
        (widthPair_ge (sig.map fun v => npInterp2 v mn mx 0 1) p)))
    · intro p
      have h1 : rhe (widthPair (sig.map fun v => npInterp2 v mn mx 0 1) p).1 ≤ (p : ℤ) := by
        have hmono := rhe_mono (widthPair_le (sig.map fun v => npInterp2 v mn mx 0 1) p)
        rwa [rhe_natCast] at hmono
      calc (rhe (widthPair (sig.map fun v => npInterp2 v mn mx 0 1) p).1).toNat
          ≤ ((p : ℤ)).toNat := Int.toNat_le_toNat h1
        _ = p := Int.toNat_natCast p
    · intro p
      have h1 : (p : ℤ) ≤ rhe (widthPair (sig.map fun v => npInterp2 v mn mx 0 1) p).2 := by
        have hmono := rhe_mono (widthPair_ge (sig.map fun v => npInterp2 v mn mx 0 1) p)
        rwa [rhe_natCast] at hmono
      calc p = ((p : ℤ)).toNat := (Int.toNat_natCast p).symm
        _ ≤ (rhe (widthPair (sig.map fun v => npInterp2 v mn mx 0 1) p).2).toNat :=
          Int.toNat_le_toNat h1
  · intro s hs
    have hdec := List.of_mem_filter hs
    simp only [decide_eq_true_eq] at hdec
    omega


/-- A successful pipeline run reaches emission with pairwise-ordered,
non-overlapping notes. -/
theorem pipeline_pairwise (onsetActivations time frequency confidence rms : List ℝ)
    (p1 p2 p3 p4 p5 p6 : ℝ) (evs : List (NoteEvent ℝ))
    (h : featuresToMidi onsetActivations time frequency confidence rms p1 p2 p3 p4 p5 p6 =
      some evs) :
    ∃ notes4 : List (Note ℝ), makeMidi notes4 time = some evs ∧
      notes4.Pairwise fun a b => a.end_ ≤ b.start := by
  simp only [featuresToMidi] at h
  cases hv : rmsToVelocity rms with
  | none => rw [hv] at h; exact absurd h (by simp)
  | some midiVelocity =>
  rw [hv, Option.some_bind] at h
  cases hmg : computeMidiPitchAndGradient frequency with
  | none => rw [hmg] at h; exact absurd h (by simp)
  | some mg =>
  rw [hmg, Option.some_bind] at h
  cases hsg : computeNoteSegments confidence mg.2 p1 with
  | none => rw [hsg] at h; exact absurd h (by simp)
  | some noteSegments =>
  rw [hsg, Option.some_bind] at h
  cases hcn : createNotes noteSegments mg.1 midiVelocity with
  | none => rw [hcn] at h; exact absurd h (by simp)
  | some notes0 =>
  rw [hcn, Option.some_bind] at h
  cases htr : trimNotes (splitNotes (removeShortQuietNotes (mergeNotes notes0) p2 p3)
      (thresholdOnsetActivations onsetActivations p4) p5) midiVelocity p6 with
  | none => rw [htr] at h; exact absurd h (by simp)
  | some notes4 =>
  rw [htr, Option.some_bind] at h
  refine ⟨notes4, h, ?_⟩
  obtain ⟨hsegpw, hseglen⟩ := computeNoteSegments_sound confidence mg.2 p1 noteSegments hsg
  have hf := createNotes_spec noteSegments mg.1 midiVelocity notes0 hcn
  have hpw0 : notes0.Pairwise fun a b => a.end_ ≤ b.start := by
    refine forall2_pairwise hf hsegpw ?_
    intro a _ b _ a' b' hSa hSb hab
    rw [hSa.2.1, hSb.1]
    exact hab
  have hwf0 : ∀ n ∈ notes0, n.start ≤ n.end_ := by
    intro n hn
    obtain ⟨se, hse, h1, h2, _⟩ := forall2_mem_right hf n hn
    have := hseglen se hse
    omega
  have hmerge := mergeAux_sound notes0 []
    (by rwa [List.nil_append]) (by rw [List.nil_append]; exact hwf0)
  have hpw2 : (removeShortQuietNotes (mergeNotes notes0) p2 p3).Pairwise
      fun a b => a.end_ ≤ b.start := hmerge.1.filter _
  have hwf2 : ∀ n ∈ removeShortQuietNotes (mergeNotes notes0) p2 p3,
      n.start ≤ n.end_ := fun n hn => hmerge.2 n (List.mem_of_mem_filter hn)
  have hsplit := splitNotes_sound (removeShortQuietNotes (mergeNotes notes0) p2 p3)
    (thresholdOnsetActivations onsetActivations p4) p5 hpw2 hwf2
  exact (trimNotes_sound midiVelocity p6 _ notes4 htr hsplit.1 hsplit.2).1

/-- Claim C7: under a strictly increasing `time` array, the emitted events
are sorted by start time and pairwise non-overlapping (each event's end
time is at most every later event's start time). -/
theorem C7_thm (onsetActivations time frequency confidence rms : List ℝ)
    (p1 p2 p3 p4 p5 p6 : ℝ) (evs : List (NoteEvent ℝ))
    (htime : time.Chain' (· < ·))
    (h : featuresToMidi onsetActivations time frequency confidence rms p1 p2 p3 p4 p5 p6 =
      some evs) :
    (evs.Pairwise fun a b => a.start_time ≤ b.start_time) ∧
    evs.Pairwise fun a b => a.end_time ≤ b.start_time := by
  obtain ⟨notes4, hmk, hpw4⟩ := pipeline_pairwise _ _ _ _ _ _ _ _ _ _ _ _ h
  have hpt : time.Pairwise (· < ·) := List.chain'_iff_pairwise.mp htime
  have hnov := makeMidi_pairwise notes4 time evs hmk hpw4 hpt
  refine ⟨?_, hnov⟩
  refine hnov.imp_of_mem ?_
  intro a b ha _ hab
  obtain ⟨n, hn, hlong, h0, h1, _, _⟩ := makeMidi_mem notes4 time evs hmk a ha
  have hlt : a.start_time < a.end_time :=
    pairwise_get_lt time hpt n.start (n.end_ - 1) (by omega) _ _ h0 h1
  linarith

/-- Claim C7, witness: the theorem applied to the concrete one-event
scenario with the strictly increasing 10-frame time ramp. -/
theorem C7_wit :
    (([(⟨129, 127, 0, 5 / 100⟩ : NoteEvent ℝ)]).Pairwise
      fun a b => a.start_time ≤ b.start_time) ∧
    ([(⟨129, 127, 0, 5 / 100⟩ : NoteEvent ℝ)]).Pairwise
      fun a b => a.end_time ≤ b.start_time :=
  C7_thm (List.replicate 10 0) time10 (List.replicate 10 14080) confDip10
    (List.replicate 10 1) 0.001 0.03 6 0.8 0.03 1 [⟨129, 127, 0, 5 / 100⟩]
    (by norm_num [time10, List.chain'_cons, List.chain'_singleton]) scenario129_eval


/-! ### The per-stage duration invariant of claim C6 -/

/-- A run of strictly positive notes in order flushes to a strictly
positive note. -/
theorem combineNotes_wf_lt :
    ∀ l : List (Note α), (l.Pairwise fun a b => a.end_ ≤ b.start) →
      (∀ n ∈ l, n.start < n.end_) → ∀ m ∈ combineNotes l, m.start < m.end_ := by
  intro l
  cases l with
  | nil => intro _ _ m hm; exact absurd hm (by simp [combineNotes])
  | cons n1 tl =>
    cases tl with
    | nil =>
      intro _ hq m hm
      simp only [combineNotes, List.mem_singleton] at hm
      subst hm
      exact hq m (by simp)
    | cons n2 rest =>
      intro hpw hq m hm
      simp only [combineNotes, List.mem_singleton] at hm
      subst hm
      show n1.start < ((n2 :: rest).getLast (List.cons_ne_nil n2 rest)).end_
      have hlast := List.getLast_mem (List.cons_ne_nil n2 rest)
      have h1 : n1.end_ ≤ ((n2 :: rest).getLast (List.cons_ne_nil n2 rest)).start :=
        (List.pairwise_cons.mp hpw).1 _ hlast
      have h2 := hq _ (List.mem_cons_of_mem _ hlast)
      have h0 := hq n1 (by simp)
      omega

/-- The merge loop preserves strictly positive durations on ordered input. -/
theorem mergeAux_wf_lt :
    ∀ (notes comb : List (Note α)),
      ((comb ++ notes).Pairwise fun a b => a.end_ ≤ b.start) →
      (∀ n ∈ comb ++ notes, n.start < n.end_) →
      ∀ m ∈ mergeAux notes comb, m.start < m.end_ := by
  intro notes
  induction notes with
  | nil =>
    intro comb hpw hwf
    rw [List.append_nil] at hpw hwf
    exact combineNotes_wf_lt comb hpw hwf
  | cons n1 rest ih =>
    intro comb hpw hwf
    cases rest with
    | nil =>
      have hsub : List.Sublist comb (comb ++ [n1]) := List.sublist_append_left comb [n1]
      refine combineNotes_wf_lt comb (hpw.sublist hsub) ?_
      intro n hn
      exact hwf n (List.mem_append_left _ hn)
    | cons n2 rest2 =>
      rw [mergeAux]
      have hshuffle : comb ++ n1 :: n2 :: rest2 = (comb ++ [n1]) ++ n2 :: rest2 := by
        rw [List.append_assoc, List.singleton_append]
      rw [hshuffle] at hpw hwf
      split
      · exact ih (comb ++ [n1]) hpw hwf
      · obtain ⟨hcross1, hrest, hcross⟩ := List.pairwise_append.mp hpw
        have hwf1 : ∀ n ∈ comb ++ [n1], n.start < n.end_ := fun n hn =>
          hwf n (List.mem_append_left _ hn)
        have hwf2 : ∀ n ∈ ([] : List (Note α)) ++ n2 :: rest2, n.start < n.end_ := by
          intro n hn
          rw [List.nil_append] at hn
          exact hwf n (List.mem_append_right _ hn)
        have hrest' : (([] : List (Note α)) ++ n2 :: rest2).Pairwise
            fun a b => a.end_ ≤ b.start := by rwa [List.nil_append]
        intro m hm
        rcases List.mem_append.mp hm with hm | hm
        · exact combineNotes_wf_lt _ hcross1 hwf1 m hm
        · exact ih [] hrest' hwf2 m hm

/-- Claim C6, amended: every stage up to the onset splitter preserves
`start < end` — the Segmenter only emits segments with `start + 1 < end`,
`create_notes` copies the segment boundaries, `merge_notes` preserves
strictly positive durations on ordered input, and the short-note filter
only discards; but the trimmer does not drop collapsing notes: it only
guarantees `start ≤ end` and passes a fully collapsed note forward, and
`make_midi`, not the producing stage, is what drops every note with
`end - 1 ≤ start`. -/
theorem C6_thm :
    (∀ (conf pg : List ℝ) (thr : ℝ) (segs : List (ℕ × ℕ)) (mp vel : List ℝ)
        (notes : List (Note ℝ)),
        computeNoteSegments conf pg thr = some segs →
        createNotes segs mp vel = some notes →
        ∀ n ∈ notes, n.start < n.end_) ∧
    (∀ notes : List (Note ℝ), (notes.Pairwise fun a b => a.end_ ≤ b.start) →
        (∀ n ∈ notes, n.start < n.end_) →
        ∀ m ∈ mergeNotes notes, m.start < m.end_) ∧
    (∀ (notes : List (Note ℚ)) (mnd mv : ℚ), ∀ m ∈ removeShortQuietNotes notes mnd mv,
        m ∈ notes) ∧
    (∀ (notes : List (Note ℚ)) (vel : List ℚ) (thr : ℚ) (out : List (Note ℚ)),
        trimNotes notes vel thr = some out → (∀ n ∈ notes, n.start ≤ n.end_) →
        ∀ m ∈ out, m.start ≤ m.end_) ∧
    (∀ (notes : List (Note ℚ)) (time : List ℚ),
        makeMidi notes time =
          makeMidi (notes.filter fun n => decide (n.start + 1 < n.end_)) time) := by
  refine ⟨?_, ?_, ?_, ?_, ?_⟩
  · intro conf pg thr segs mp vel notes hseg hcn n hn
    obtain ⟨_, hlen⟩ := computeNoteSegments_sound conf pg thr segs hseg
    obtain ⟨se, hse, h1, h2, _⟩ := forall2_mem_right (createNotes_spec _ _ _ _ hcn) n hn
    have := hlen se hse
    omega
  · intro notes hpw hlt m hm
    exact mergeAux_wf_lt notes [] (by rwa [List.nil_append])
      (by rw [List.nil_append]; exact hlt) m hm
  · intro notes mnd mv m hm
    exact List.mem_of_mem_filter hm
  · intro notes vel thr out hout hin m hm
    obtain ⟨n, hn, hnm⟩ := forall2_mem_right (trimNotes_forall2 vel thr notes out hout) m hm
    exact (trimNote_le vel thr n m (hin n hn) hnm).2.1
  · intro notes time
    exact makeMidi_drop_collapsed notes time

/-- Claim C6, witness: the amended theorem exercised at concrete inputs —
the Segmenter/creator pair on a two-frame constant signal, the merge loop
on a real two-note run, and the trimmed-to-collapse note of the
counterexample against the weakened trimmer guarantee and the emitter's
filtering. -/
theorem C6_wit :
    (∀ n ∈ [(⟨npMedianT (List.replicate 2 (0 : ℝ)), 0, 2,
        listMax (List.replicate 2 (0 : ℝ))⟩ : Note ℝ)], n.start < n.end_) ∧
    (∀ m ∈ mergeNotes [(⟨129, 0, 6, 127⟩ : Note ℝ), ⟨129, 6, 10, 127⟩],
        m.start < m.end_) ∧
    (∀ m ∈ ([⟨60, 2, 2, 5⟩] : List (Note ℚ)), m.start ≤ m.end_) ∧
    makeMidi ([⟨60, 2, 2, 5⟩] : List (Note ℚ)) [0, 1] =
      makeMidi (([⟨60, 2, 2, 5⟩] : List (Note ℚ)).filter
        fun n => decide (n.start + 1 < n.end_)) [0, 1] := by
  refine ⟨?_, ?_, ?_, C6_thm.2.2.2.2 _ _⟩
  · exact C6_thm.1 (List.replicate 2 1) (List.replicate 2 1) 0 [(0, 2)]
      (List.replicate 2 0) (List.replicate 2 0) _
      (computeNoteSegments_ones 2 le_rfl 0)
      (createNotes_single_replicate' 2 (by omega) 0 0)
  · refine C6_thm.2.1 [(⟨129, 0, 6, 127⟩ : Note ℝ), ⟨129, 6, 10, 127⟩] ?_ ?_
    · norm_num [List.pairwise_cons]
    · intro n hn
      rcases List.mem_cons.mp hn with h | h
      · subst h; norm_num
      · rw [List.mem_singleton] at h
        subst h
        norm_num
  · intro m hm
    refine C6_thm.2.2.2.1 [⟨60, 0, 2, 5⟩] [0, 0] 1 [⟨60, 2, 2, 5⟩] rfl ?_ m hm
    intro x hx
    rw [List.mem_singleton] at hx
    subst hx
    exact Nat.zero_le 2

end A2M
